import Mathlib

/-!
# Verification of a boundary-tag heap allocator

Shallow embedding of the two allocator strategies of this repository:

* `src/src/mm-implicit.c`, the scanning ("implicit list") strategy, in namespace `Implicit`;
* `src/src/mm-explicit.c`, the indexed ("explicit free list") strategy, in namespace `Explicit`.

Modelling conventions.  `size_t` values are `Nat` with an explicit `% 2 ^ 64`
exactly where the C arithmetic can wrap.  Tag words keep the C bit encoding
(`size | allocated` built with `|||`, decoded with `&&&`).  Addresses are byte
addresses (`Nat`), the managed region starting at address 0; pointer arithmetic
cannot wrap in a defined C execution.  Payload bytes are a function from byte
address to byte value.  The region provider `mem_sbrk` is modelled by a break
pointer `brk` and a capacity `limit`: growing by `n` succeeds exactly when
`brk + n ≤ limit`, otherwise `mem_sbrk` returns the failure marker `(void *) -1`.
Operations that can run into C undefined behaviour (writing through a failed
`mem_sbrk` result, reading or writing a word that is not part of any live
block, dereferencing `NULL`) return `Option`, with `none` marking the undefined
execution; a `NULL` pointer result of a defined execution is the `none` of an
`Option Nat` payload inside the `some`.
-/

/-- `sizeof(size_t)` on the 64-bit word model. -/
def WORD : Nat := 8

/-- `const size_t ALIGNMENT = 2 * sizeof(size_t);` (both files). -/
def ALIGNMENT : Nat := 2 * WORD

/-- `round_up` from both files: `(size + (n - 1)) / n * n`.  The addition is
`size_t` arithmetic and can wrap, hence the `% 2 ^ 64`; the following
`/ n * n` never exceeds its argument, so it cannot wrap. -/
def round_up (size n : Nat) : Nat :=
  (size + (n - 1)) % 2 ^ 64 / n * n

/-- The tag-word encoding shared by `set_header` (mm-implicit.c) and
`set_boundaries` (mm-explicit.c): `size | is_allocated`. -/
def mk_tag (size : Nat) (is_allocated : Bool) : Nat :=
  size ||| (if is_allocated then 1 else 0)

/-- `get_size`: `header & ~1`.  On the 64-bit word model `~(size_t)1`
is `2 ^ 64 - 2`. -/
def tag_size (w : Nat) : Nat :=
  w &&& (2 ^ 64 - 2)

/-- `is_allocated`: `header & 1`, converted to `bool` by C's nonzero test. -/
def tag_allocated (w : Nat) : Bool :=
  w &&& 1 != 0

namespace Implicit

/-- `sizeof(block_t)` in mm-implicit.c: one `size_t` header (the flexible
payload array contributes no size). -/
def sizeof_block : Nat := 8

/-- The address of the first block: `mm_init` consumes
`ALIGNMENT - sizeof(block_t) = 8` padding bytes from the region start. -/
def heap_base : Nat := 8

/-- One heap block of mm-implicit.c, identified by its header word.  The
block's total size (header included) and its allocation bit are packed in
the word exactly as in the source.  Blocks are kept in address order; the
address of a block is `heap_base` plus the sizes of the blocks before it,
because the blocks tile the heap. -/
structure Block where
  header : Nat
deriving DecidableEq, Repr

/-- `get_size` applied to a block. -/
def bsize (b : Block) : Nat := tag_size b.header

/-- `is_allocated` applied to a block. -/
def balloc (b : Block) : Bool := tag_allocated b.header

/-- `set_header(block, size, is_allocated)`: `block->header = size | is_allocated`.
The write replaces the whole block word, so it is modelled as producing the
block. -/
def set_header (size : Nat) (is_allocated : Bool) : Block :=
  ⟨mk_tag size is_allocated⟩

/-- Allocator state of mm-implicit.c.  `blocks` is empty exactly when
`mm_heap_first == NULL`; `mm_heap_first`/`mm_heap_last` are the first/last
list entries.  `brk`/`limit` model `mem_sbrk`, `data` the payload bytes. -/
structure State where
  blocks : List Block
  brk : Nat
  limit : Nat
  data : Nat → Nat

/-- `mm_init`: grow the region by `ALIGNMENT - sizeof(block_t) = 8` padding
bytes (so the first payload is ALIGNMENT-aligned) and reset the heap to
no blocks.  Fails iff the region provider cannot supply the padding. -/
def mm_init (limit : Nat) : Option State :=
  if 0 + (ALIGNMENT - sizeof_block) ≤ limit then
    some { blocks := [], brk := ALIGNMENT - sizeof_block, limit := limit, data := fun _ => 0 }
  else
    none

/-- The body of the fit branch of `mm_malloc`'s scan (mm-implicit.c lines
106-122): split the matched block when the slack is at least
`sizeof(block_t) + ALIGNMENT`, otherwise allocate it whole.  The `Nat`
subtraction matches the C `size_t` subtraction because the branch is only
reached with `curr_size ≥ required`. -/
def place (curr_size required : Nat) : List Block :=
  if sizeof_block + ALIGNMENT ≤ curr_size - required then
    [set_header required true, set_header (curr_size - required) false]
  else
    [set_header curr_size true]

/-- The coalescing step at the top of each scan iteration
("if (!is_allocated(curr) && prev_free)"): when the current block and the
block just before it (the head of the reversed prefix `done`) are both free,
fold the current block into it — `curr_size += get_size(prev_free);
set_header(prev_free, curr_size, false); curr = prev_free;` — a `size_t`
addition, hence the `% 2 ^ 64`.  Returns the running `curr_size`, the block
the iteration continues with, and the remaining prefix. -/
def merge_step (done : List Block) (curr : Block) : Nat × Block × List Block :=
  match done with
  | prev :: dtail =>
    if !balloc curr && !balloc prev then
      let sz := (bsize curr + bsize prev) % 2 ^ 64
      (sz, set_header sz false, dtail)
    else
      (bsize curr, curr, done)
  | [] => (bsize curr, curr, done)

/-- The scan loop of `mm_malloc` (mm-implicit.c lines 94-133).  `done` is the
reversed list of blocks already passed; its head is the block just before
`curr`, so "the head of `done` is free" is exactly "`prev_free` is set"
(the loop sets `prev_free` to `curr` when the block it leaves behind is
free, and to `NULL` otherwise).  Returns the payload address of the matched
block (if any) and the resulting block list. -/
def scanAux (required : Nat) : List Block → List Block → Option Nat × List Block
  | done, [] => (none, done.reverse)
  | done, curr :: rest =>
    let step := merge_step done curr
    let curr_size := step.1
    let cur := step.2.1
    let done' := step.2.2
    -- "if (!is_allocated(curr) && curr_size >= required_size)"
    if !balloc cur && decide (required ≤ curr_size) then
      (some (heap_base + (done'.map bsize).sum + sizeof_block),
        done'.reverse ++ place curr_size required ++ rest)
    else
      scanAux required (cur :: done') rest

/-- `mm_malloc` of mm-implicit.c.  The requested size is padded by the header
and rounded up (one `% 2 ^ 64` covers the wrap of both additions).  An empty
heap and a fruitless scan both grow the region by exactly `required` bytes;
a failed growth returns `NULL`, keeping whatever merging the scan already
performed. -/
def mm_malloc (s : State) (size : Nat) : Option Nat × State :=
  let required := round_up (sizeof_block + size) ALIGNMENT
  if s.blocks.isEmpty then
    -- "If there are no blocks yet, create the initial heap"
    if s.brk + required ≤ s.limit then
      (some (s.brk + sizeof_block),
        { s with blocks := [set_header required true], brk := s.brk + required })
    else
      (none, s)
  else
    match scanAux required [] s.blocks with
    | (some payload, bs) => (some payload, { s with blocks := bs })
    | (none, bs) =>
      -- "No fit found. Get more memory and place the block"
      if s.brk + required ≤ s.limit then
        (some (s.brk + sizeof_block),
          { s with blocks := bs ++ [set_header required true], brk := s.brk + required })
      else
        (none, { s with blocks := bs })

/-- Helper for `mm_free`: walk the blocks with their addresses; when the block
whose payload address is `ptr` is found, rewrite its header with the same
size and the allocation bit cleared (`set_header(block, get_size(block),
false)`).  If `ptr` is not a payload address the C write corrupts an
arbitrary word: that execution is undefined (`none`). -/
def free_at (ptr : Nat) : Nat → List Block → Option (List Block)
  | _, [] => none
  | a, b :: rest =>
    if a + sizeof_block = ptr then
      some (set_header (bsize b) false :: rest)
    else
      match free_at ptr (a + bsize b) rest with
      | some rest' => some (b :: rest')
      | none => none

/-- `mm_free` of mm-implicit.c: a no-op on `NULL`, otherwise mark the owning
block unallocated and change nothing else. -/
def mm_free (s : State) (ptr : Option Nat) : Option State :=
  match ptr with
  | none => some s
  | some p =>
    match free_at p heap_base s.blocks with
    | some bs => some { s with blocks := bs }
    | none => none

/-- Look up the header size of the block whose payload address is `ptr`
(`get_size(block_from_payload(ptr))`). -/
def size_at (ptr : Nat) : Nat → List Block → Option Nat
  | _, [] => none
  | a, b :: rest =>
    if a + sizeof_block = ptr then some (bsize b)
    else size_at ptr (a + bsize b) rest

/-- `memcpy(dst, src, n)` on the payload bytes. -/
def memcpy (s : State) (dst src n : Nat) : State :=
  { s with data := fun a => if dst ≤ a ∧ a < dst + n then s.data (src + (a - dst)) else s.data a }

/-- `memset(dst, 0, n)` on the payload bytes. -/
def memset0 (s : State) (dst n : Nat) : State :=
  { s with data := fun a => if dst ≤ a ∧ a < dst + n then 0 else s.data a }

/-- `mm_realloc` of mm-implicit.c.  `NULL` defers to `mm_malloc`; size 0
defers to `mm_free` and returns `NULL`; a request equal to the old payload
size (`get_size(old_block) - sizeof(block_t)`) returns the old pointer
unchanged; otherwise a fresh block is obtained, `min(old_size, size)` bytes
are copied, and the old block is freed.  A failed `mm_malloc` returns `NULL`
without touching the old block. -/
def mm_realloc (s : State) (old_ptr : Option Nat) (size : Nat) : Option (Option Nat × State) :=
  match old_ptr with
  | none => some (mm_malloc s size)
  | some p =>
    if size = 0 then
      (mm_free s (some p)).map (fun s' => (none, s'))
    else
      match size_at p heap_base s.blocks with
      | none => none
      | some bsz =>
        let old_size := bsz - sizeof_block
        if size = old_size then
          some (some p, s)
        else
          match mm_malloc s size with
          | (none, s1) => some (none, s1)
          | (some q, s1) =>
            let copy_size := if old_size < size then old_size else size
            let s2 := memcpy s1 q p copy_size
            (mm_free s2 (some p)).map (fun s3 => (some q, s3))

/-- `mm_calloc` of mm-implicit.c: allocate `nmemb * size` bytes (an unchecked
`size_t` product, hence the `% 2 ^ 64`) and zero-fill them. -/
def mm_calloc (s : State) (nmemb size : Nat) : Option Nat × State :=
  let total := nmemb * size % 2 ^ 64
  match mm_malloc s total with
  | (none, s1) => (none, s1)
  | (some q, s1) => (some q, memset0 s1 q total)

end Implicit

namespace Explicit

/-- Address of the prologue footer word.  `mm_init` lays the region out as
head sentinel node (bytes 0-15), tail sentinel node (16-31), prologue footer
(32-39), initial epilogue header (40-47). -/
def prologue_addr : Nat := 32

/-- One heap block of mm-explicit.c.  `addr` is the address of the `block_t`
struct, i.e. of its `footer` field, which physically holds the *previous*
block's trailing tag; the block's own header word sits at `addr + WORD` and
its payload (hosting the free-list node while free) at `addr + ALIGNMENT`.
`header` is the leading tag word; `footer` is the word the block's own
trailing tag holds, located at `addr + ALIGNMENT + get_size(header)`.
`set_boundaries` always writes both words with the same value. -/
structure Block where
  addr : Nat
  header : Nat
  footer : Nat
deriving DecidableEq, Repr

/-- Address of a block's own header word. -/
def header_addr (b : Block) : Nat := b.addr + WORD

/-- Address of a block's own trailing tag: `(char *) block + ALIGNMENT + size`. -/
def footer_addr (b : Block) : Nat := b.addr + ALIGNMENT + tag_size b.header

/-- Allocator state of mm-explicit.c.  `blocks` are the live blocks in
address order.  `freeList` holds the addresses of the blocks whose intrusive
`linked_node_t`s are linked between the `head` and `tail` sentinels, in
head-to-tail list order (the sentinels themselves are not represented: they
are permanent and carry no block).  `epi` is the address of the epilogue
header word; `brk`/`limit` model `mem_sbrk`; `data` the payload bytes. -/
structure State where
  blocks : List Block
  freeList : List Nat
  brk : Nat
  limit : Nat
  epi : Nat
  data : Nat → Nat

/-- Read the heap word at address `a`, as the source's neighbour probes do:
it is the prologue footer or the epilogue header (both permanently `0 | 1`),
or some live block's leading or trailing tag.  Reading any other word
(possible only on a heap the code has already corrupted) yields an
unspecified value: that execution is undefined (`none`). -/
def read_word (s : State) (a : Nat) : Option Nat :=
  if a = prologue_addr then some (0 ||| 1)
  else if a = s.epi then some (0 ||| 1)
  else
    match s.blocks.find? (fun b => header_addr b == a) with
    | some b => some b.header
    | none =>
      match s.blocks.find? (fun b => footer_addr b == a) with
      | some b => some b.footer
      | none => none

/-- `set_boundaries(block, size, is_allocated)`: write `size | is_allocated`
into the leading tag and into the trailing tag at
`(char *) block + ALIGNMENT + size`. -/
def set_boundaries (b : Block) (size : Nat) (is_allocated : Bool) : Block :=
  { b with header := mk_tag size is_allocated, footer := mk_tag size is_allocated }

/-- Apply `f` to the block at address `a`. -/
def update_block (s : State) (a : Nat) (f : Block → Block) : State :=
  { s with blocks := s.blocks.map (fun b => if b.addr = a then f b else b) }

/-- Drop the block at address `a` from the block chain (after a coalesce its
tags are stale interior bytes of the merged block, no longer block tags). -/
def remove_block (s : State) (a : Nat) : State :=
  { s with blocks := s.blocks.filter (fun b => b.addr != a) }

/-- `is_prev_allocated(block)`: the low bit of `block->footer`, the word at
`block`'s own address, which is the address-adjacent predecessor's trailing
tag (or the prologue). -/
def is_prev_allocated (s : State) (b : Block) : Option Bool :=
  (read_word s b.addr).map (fun w => w &&& 1 != 0)

/-- `get_prev_size(block)`: `block->footer & -1`.  On 64-bit `size_t`,
`-1` is all ones, so the mask keeps every bit of the word, including the
allocation bit; the function is only ever called on a free predecessor,
whose tag has a clear low bit. -/
def get_prev_size (s : State) (b : Block) : Option Nat :=
  read_word s b.addr

/-- `is_next_allocated(block)`: read the word at
`(char *) block + ALIGNMENT + get_size(block) + sizeof(size_t)`; a zero
masked size means the epilogue was reached (treated as allocated), otherwise
the low bit decides. -/
def is_next_allocated (s : State) (b : Block) : Option Bool :=
  (read_word s (b.addr + ALIGNMENT + tag_size b.header + WORD)).map (fun w =>
    if tag_size w ≠ 0 then w &&& 1 != 0 else true)

/-- `add_linked_node_to_block(block)`: splice the node living at
`block + ALIGNMENT` directly before the tail sentinel, i.e. append the block
at the tail end of the free list.  The source stores the node's two pointers
in the block's payload; the model keeps the list abstract, which is exact
while the payload holds the 16-byte node — the case for every block the
concrete traces below free.  Freeing a zero-payload block would make the
stores clobber the block's trailing tag and its neighbour's words:
executions the C corrupts while this abstraction keeps defined. -/
def add_linked_node_to_block (s : State) (a : Nat) : State :=
  { s with freeList := s.freeList ++ [a] }

/-- `remove_linked_node_from_block(block)`: O(1) unlink of the block's node.
Unlinking a node that is not in the list follows garbage pointers in C; the
states reached by the allocator always have the node present (see the
free-list invariant), where `erase` is the exact effect. -/
def remove_linked_node_from_block (s : State) (a : Nat) : State :=
  { s with freeList := s.freeList.erase a }

/-- `split(block, size, allocated_size)` (mm-explicit.c lines 157-170): shrink
the matched block (already marked allocated by `find_fit`) to
`allocated_size`, carve the remainder into a new free block directly behind
it, append the remainder's node to the free list, and unlink the original
block's node.  The `Nat` subtraction matches the C `size_t` subtraction
because `find_fit`, under the exact-rational threshold reading, only splits
when `size ≥ allocated_size + 2 * ALIGNMENT`.  (With `allocated_size = 0`
the source's footer write for the allocated part lands on the matched
block's still-linked node and the subsequent unlink follows the clobbered
pointers — corruption this abstraction does not track; no concrete trace
below takes that path.) -/
def split (s : State) (a : Nat) (size allocated_size : Nat) : State :=
  let next_addr := a + allocated_size + ALIGNMENT
  let nb := set_boundaries ⟨next_addr, 0, 0⟩ (size - allocated_size - ALIGNMENT) false
  let s1 := { s with
    blocks := s.blocks.flatMap (fun b =>
      if b.addr = a then [set_boundaries b allocated_size true, nb] else [b]) }
  remove_linked_node_from_block (add_linked_node_to_block s1 next_addr) a

/-- The loop of `find_fit` (mm-explicit.c lines 236-256), iterating over the
candidate node addresses from `tail->prev` towards `head`, i.e. over the
free list reversed.  A fitting block is first marked allocated whole; if the
slack is below the split threshold its node is unlinked and it is returned,
otherwise it is split.  The threshold compares integers against the
floating-point constant `size + ALIGNMENT + 0.01`, modelled as the exact
rational comparison `block_size < size + ALIGNMENT + 1/100`, written over
the integers scaled by 100.  That reading agrees with the IEEE `double`
comparison exactly while `size + ALIGNMENT < 2^47`, where adding 0.01 still
moves the rounded bound above `size + ALIGNMENT`; for larger sizes the
`double` absorbs the 0.01 and the source splits already at
`block_size = size + ALIGNMENT`, which this model does not reproduce.  A
node address with no backing block means the intrusive list was corrupted
(never the case, see the free-list invariant): undefined (`none`). -/
def find_fit_loop (s : State) (size : Nat) : List Nat → Option (Option (Nat × State))
  | [] => some none
  | a :: rest =>
    match s.blocks.find? (fun b => b.addr == a) with
    | none => none
    | some b =>
      let block_size := tag_size b.header
      if size ≤ block_size then
        let s1 := update_block s a (fun blk => set_boundaries blk block_size true)
        if 100 * block_size < 100 * size + 100 * ALIGNMENT + 1 then
          some (some (a, remove_linked_node_from_block s1 a))
        else
          some (some (a, split s1 a block_size size))
      else
        find_fit_loop s size rest

/-- `find_fit(size)`: first fit over the reversed free list; `none` inside
`some` when no free block is large enough. -/
def find_fit (s : State) (size : Nat) : Option (Option (Nat × State)) :=
  find_fit_loop s size s.freeList.reverse

/-- Does the block at address `a` fit a request of `size` bytes?  The fit
test of one `find_fit` iteration, abbreviated for stating the first-fit
policy. -/
def fits (s : State) (size a : Nat) : Bool :=
  match s.blocks.find? (fun b => b.addr == a) with
  | some b => decide (size ≤ tag_size b.header)
  | none => false

/-- `mm_init` of mm-explicit.c: reserve the head and tail sentinel nodes
(2 × ALIGNMENT bytes), then the prologue footer and the initial epilogue
header (2 × WORD bytes), both tagged `0 | true`.  Fails iff the region
provider cannot supply those 48 bytes. -/
def mm_init (limit : Nat) : Option State :=
  if 2 * ALIGNMENT + 2 * WORD ≤ limit then
    some { blocks := [], freeList := [], brk := 2 * ALIGNMENT + 2 * WORD,
           limit := limit, epi := 2 * ALIGNMENT + WORD, data := fun _ => 0 }
  else
    none

/-- `mm_malloc` of mm-explicit.c.  On a find-fit miss the region is grown by
the rounded size; the new block starts `ALIGNMENT` bytes before the old
break so that its header lands on the old epilogue slot, then one word is
grown for its trailing tag and one for the fresh epilogue.  The first
`mem_sbrk` is not error-checked: if it fails while the second succeeds, the
code writes tags through `(void *) -1 - ALIGNMENT` (undefined); if both
fail, `NULL` is returned.  The third (epilogue) `mem_sbrk` is also
unchecked: its failure makes the code write through `(void *) -1`
(undefined).  If only the second fails, `NULL` is returned but the region
has already grown by the block size. -/
def mm_malloc (s : State) (size : Nat) : Option (Option Nat × State) :=
  let sz := round_up size ALIGNMENT
  match find_fit s sz with
  | none => none
  | some (some (a, s')) => some (some (a + ALIGNMENT), s')
  | some none =>
    if s.brk + sz ≤ s.limit then
      -- set_location = mem_sbrk(size) - ALIGNMENT
      let loc := s.brk - ALIGNMENT
      let s1 := { s with brk := s.brk + sz }
      if s1.brk + WORD ≤ s.limit then
        -- footer obtained; set_boundaries(block, size, true)
        let s2 := { s1 with brk := s1.brk + WORD }
        let nb := set_boundaries ⟨loc, 0, 0⟩ sz true
        if s2.brk + WORD ≤ s.limit then
          -- epilogue obtained; *epilogue = 0 | true
          some (some (loc + ALIGNMENT),
            { s2 with blocks := s2.blocks ++ [nb], epi := s2.brk, brk := s2.brk + WORD })
        else
          none
      else
        some (none, s1)
    else
      if s.brk + WORD ≤ s.limit then
        none
      else
        some (none, s)

/-- `coalesce(block)` (mm-explicit.c lines 184-227).  `b` is the just-freed
block as `mm_free` left it.  If the address-adjacent predecessor is free,
absorb `b` into it and unlink `b`'s node; if thereafter the successor is
also free, absorb it too (the source re-reads `get_size(block)` and
`get_prev_size(block)` from `b`'s now-stale words, which no intervening
write has touched, so the captured values are exact).  If only the successor
is free, absorb it into `b`.  Each absorbed block is dropped from the block
chain and its node unlinked.  Writes through a tag address that is not a
live block's are undefined (`none`). -/
def coalesce (s : State) (b : Block) : Option State :=
  let size := tag_size b.header
  match is_prev_allocated s b with
  | none => none
  | some pa =>
    if !pa then
      match get_prev_size s b with
      | none => none
      | some psz =>
        let sz1 := (size + (psz + ALIGNMENT)) % 2 ^ 64
        let pred_addr := b.addr - psz - ALIGNMENT
        if (s.blocks.find? (fun x => x.addr == pred_addr)).isSome then
          let s1 := update_block s pred_addr (fun blk => set_boundaries blk sz1 false)
          let s2 := remove_block (remove_linked_node_from_block s1 b.addr) b.addr
          match is_next_allocated s2 b with
          | none => none
          | some na =>
            if !na then
              let next_addr := b.addr + size + ALIGNMENT
              match s2.blocks.find? (fun x => x.addr == next_addr) with
              | none => none
              | some nb =>
                let sz2 := (sz1 + (tag_size nb.header + ALIGNMENT)) % 2 ^ 64
                let s3 := update_block s2 pred_addr (fun blk => set_boundaries blk sz2 false)
                some (remove_block (remove_linked_node_from_block s3 next_addr) next_addr)
            else
              some s2
        else
          none
    else
      match is_next_allocated s b with
      | none => none
      | some na =>
        if !na then
          let next_addr := b.addr + size + ALIGNMENT
          match s.blocks.find? (fun x => x.addr == next_addr) with
          | none => none
          | some nb =>
            let sz := (size + (tag_size nb.header + ALIGNMENT)) % 2 ^ 64
            let s1 := update_block s b.addr (fun blk => set_boundaries blk sz false)
            some (remove_block (remove_linked_node_from_block s1 next_addr) next_addr)
        else
          some s

/-- `mm_free` of mm-explicit.c: a no-op on `NULL`; otherwise clear the owning
block's tags, append its node to the free list, and coalesce eagerly when
either address-adjacent neighbour is free (the `||` short-circuits, as in
the source).  Freeing a block whose node is already linked (a double free,
undefined by contract) makes `add_linked_node_to_block` rewire the intrusive
list into a cycle; the model marks that corruption as undefined (`none`). -/
def mm_free (s : State) (ptr : Option Nat) : Option State :=
  match ptr with
  | none => some s
  | some p =>
    match s.blocks.find? (fun b => b.addr == p - ALIGNMENT) with
    | none => none
    | some b =>
      if b.addr ∈ s.freeList then none
      else
      let b2 := set_boundaries b (tag_size b.header) false
      let s1 := update_block s b.addr (fun blk => set_boundaries blk (tag_size blk.header) false)
      let s2 := add_linked_node_to_block s1 b.addr
      match is_prev_allocated s2 b2 with
      | none => none
      | some pa =>
        if !pa then coalesce s2 b2
        else
          match is_next_allocated s2 b2 with
          | none => none
          | some na =>
            if !na then coalesce s2 b2 else some s2

/-- `memcpy(dst, src, n)` with the source's unchecked destination: `mm_realloc`
passes `mm_malloc`'s result straight in.  A `NULL` destination with `n = 0`
moves no byte (modelled as a no-op, as real implementations behave); with
`n > 0` it dereferences `NULL`: undefined (`none`). -/
def memcpy_chk (s : State) (dst : Option Nat) (src n : Nat) : Option State :=
  match dst with
  | some d =>
    some { s with data := fun a => if d ≤ a ∧ a < d + n then s.data (src + (a - d)) else s.data a }
  | none => if n = 0 then some s else none

/-- `memset(dst, 0, n)` on the payload bytes. -/
def memset0 (s : State) (dst n : Nat) : State :=
  { s with data := fun a => if dst ≤ a ∧ a < dst + n then 0 else s.data a }

/-- `mm_realloc` of mm-explicit.c.  `NULL` defers to `mm_malloc`; size 0
defers to `mm_free` and returns `NULL`.  Otherwise a new block is obtained,
`min(old_size, size)` bytes are copied and the old block freed — with *no*
check of `mm_malloc`'s result: on an out-of-memory failure the copy targets
`NULL` and the old block is freed anyway. -/
def mm_realloc (s : State) (old_ptr : Option Nat) (size : Nat) : Option (Option Nat × State) :=
  match old_ptr with
  | none => mm_malloc s size
  | some p =>
    if size = 0 then
      (mm_free s (some p)).map (fun s' => (none, s'))
    else
      match mm_malloc s size with
      | none => none
      | some (new_ptr, s1) =>
        match s1.blocks.find? (fun b => b.addr == p - ALIGNMENT) with
        | none => none
        | some ob =>
          let old_size := tag_size ob.header
          let copy_size := if old_size < size then old_size else size
          match memcpy_chk s1 new_ptr p copy_size with
          | none => none
          | some s2 =>
            (mm_free s2 (some p)).map (fun s3 => (new_ptr, s3))

/-- `mm_calloc` of mm-explicit.c: allocate `nmemb * size` bytes (an unchecked
`size_t` product, hence the `% 2 ^ 64`) and zero-fill them. -/
def mm_calloc (s : State) (nmemb size : Nat) : Option (Option Nat × State) :=
  let total := nmemb * size % 2 ^ 64
  match mm_malloc s total with
  | none => none
  | some (none, s1) => some (none, s1)
  | some (some q, s1) => some (some q, memset0 s1 q total)

end Explicit

/-- One public allocator call, for stating properties of arbitrary call
sequences.  Raw pointers are passed as the caller would pass them; the
operation semantics decides whether they are valid. -/
inductive Op where
  | malloc (size : Nat)
  | free (ptr : Option Nat)
  | realloc (ptr : Option Nat) (size : Nat)
  | calloc (nmemb size : Nat)
deriving DecidableEq, Repr

namespace Implicit

/-- Dispatch one public call of mm-implicit.c (`mm_free` returns no pointer). -/
def step (s : State) : Op → Option (Option Nat × State)
  | .malloc n => some (mm_malloc s n)
  | .free p => (mm_free s p).map (fun s' => (none, s'))
  | .realloc p n => mm_realloc s p n
  | .calloc n m => some (mm_calloc s n m)

/-- Run a sequence of public calls of mm-implicit.c, collecting the returned
pointers; `none` when some call runs into undefined behaviour. -/
def run (s : State) : List Op → Option (State × List (Option Nat))
  | [] => some (s, [])
  | op :: ops =>
    match step s op with
    | none => none
    | some (r, s') =>
      match run s' ops with
      | none => none
      | some (sf, rs) => some (sf, r :: rs)

/-- Canonical well-formed block of mm-implicit.c: the header word is exactly
the tag its decoded size and flag re-encode to, and the size is a multiple of
the alignment unit.  Every header the code ever writes has this shape. -/
def block_ok (b : Block) : Prop :=
  bsize b % ALIGNMENT = 0 ∧ b.header = mk_tag (bsize b) (balloc b)

/-- Well-formedness of an mm-implicit.c state: every block is canonical and
the break sits one header before an alignment boundary (the heap starts with
`ALIGNMENT - sizeof(block_t)` padding bytes and grows by multiples of
`ALIGNMENT`). -/
def Iwf (s : State) : Prop :=
  (∀ b ∈ s.blocks, block_ok b) ∧ s.brk % ALIGNMENT = WORD

end Implicit

namespace Explicit

/-- Dispatch one public call of mm-explicit.c (`mm_free` returns no pointer). -/
def step (s : State) : Op → Option (Option Nat × State)
  | .malloc n => mm_malloc s n
  | .free p => (mm_free s p).map (fun s' => (none, s'))
  | .realloc p n => mm_realloc s p n
  | .calloc n m => mm_calloc s n m

/-- Run a sequence of public calls of mm-explicit.c, collecting the returned
pointers; `none` when some call runs into undefined behaviour. -/
def run (s : State) : List Op → Option (State × List (Option Nat))
  | [] => some (s, [])
  | op :: ops =>
    match step s op with
    | none => none
    | some (r, s') =>
      match run s' ops with
      | none => none
      | some (sf, rs) => some (sf, r :: rs)

/-- Canonical well-formed block of mm-explicit.c: aligned address, aligned
decoded size, canonical header word, and agreeing leading/trailing tags. -/
def eblock_ok (b : Block) : Prop :=
  b.addr % ALIGNMENT = 0 ∧
  tag_size b.header % ALIGNMENT = 0 ∧
  b.header = mk_tag (tag_size b.header) (tag_allocated b.header) ∧
  b.footer = b.header

/-- Structural invariant of an mm-explicit.c state, holding between public
operations:

* every block is canonical (`eblock_ok`) and the break is aligned;
* the blocks sit in address order behind the prologue, each block's span
  (struct footer word through own trailing tag) disjoint from the next and
  from the epilogue and break, and the break never exceeds the region
  capacity, which fits a `size_t`;
* a block is flagged free exactly when its address is linked in the free
  list, the free list has no duplicates, and every free-list entry is backed
  by a block. -/
structure EInv (s : State) : Prop where
  blocks_ok : ∀ b ∈ s.blocks, eblock_ok b
  brk_mod : s.brk % ALIGNMENT = 0
  addr_lb : ∀ b ∈ s.blocks, prologue_addr ≤ b.addr
  ordered : s.blocks.Pairwise (fun b c => footer_addr b ≤ c.addr)
  below_epi : ∀ b ∈ s.blocks, footer_addr b + WORD ≤ s.epi
  epi_brk : s.epi + WORD ≤ s.brk
  prologue_epi : prologue_addr + WORD ≤ s.epi
  sync : ∀ b ∈ s.blocks, (tag_allocated b.header = false ↔ b.addr ∈ s.freeList)
  nodup : s.freeList.Nodup
  backed : ∀ a ∈ s.freeList, ∃ b, b ∈ s.blocks ∧ b.addr = a
  brk_le : s.brk ≤ s.limit
  limit_lt : s.limit < 2 ^ 64

end Explicit

/-! ## Concrete executions

Closed call sequences, each returning a first-order summary of the heap it
produces, so that a single evaluation settles what a given trace does.
`bsummary` projects a block list to decidable data: for the scanning strategy
the (size, allocated) pairs, for the indexed strategy the (address, size,
allocated) triples. -/

namespace Implicit

/-- First-order summary of a block list of mm-implicit.c. -/
def bsummary (l : List Block) : List (Nat × Bool) :=
  l.map (fun b => (bsize b, balloc b))

/-- Four 16-byte allocations, the first three freed, then a 160-byte request:
the scan serving the last call folds the three consecutive 32-byte free
blocks into one 96-byte free block (returned are the block summaries just
before and just after that call). -/
def collapse_demo : Option (List (Nat × Bool) × List (Nat × Bool)) := do
  let s0 ← mm_init 1000
  let (p1, s1) := mm_malloc s0 16
  let (p2, s2) := mm_malloc s1 16
  let (p3, s3) := mm_malloc s2 16
  let (_, s4) := mm_malloc s3 16
  let s5 ← mm_free s4 p1
  let s6 ← mm_free s5 p2
  let s7 ← mm_free s6 p3
  let (_, s8) := mm_malloc s7 160
  some (bsummary s7.blocks, bsummary s8.blocks)

/-- Allocate 16 bytes, then reallocate the block to 24 bytes — exactly its
payload capacity (32-byte block minus the 8-byte header).  Returned are the
old pointer, `mm_realloc`'s result, the final block summary, and whether a
fresh `mm_malloc 24` on the same heap would have returned a block. -/
def realloc_shortcut_demo :
    Option (Option Nat × Option Nat × List (Nat × Bool) × Bool) := do
  let s0 ← mm_init 1000
  let (p, s1) := mm_malloc s0 16
  let (q, s2) ← mm_realloc s1 p 24
  some (p, q, bsummary s2.blocks, ((mm_malloc s1 24).1).isSome)

/-- Allocate 16 bytes, then reallocate the block to 40 bytes: a fresh
48-byte block is obtained at payload address 48, the 24 old payload bytes
are copied, and the old block is freed.  Returned are the old pointer, the
new pointer and the final block summary. -/
def realloc_copy_demo : Option (Option Nat × Option Nat × List (Nat × Bool)) := do
  let s0 ← mm_init 1000
  let (p, s1) := mm_malloc s0 16
  let (q, s2) ← mm_realloc s1 p 40
  some (p, q, bsummary s2.blocks)

/-- A zero-byte allocation on a fresh heap of mm-implicit.c. -/
def malloc0_demo : Option (Option Nat × List (Nat × Bool)) := do
  let s0 ← mm_init 100
  let (p, s1) := mm_malloc s0 0
  some (p, bsummary s1.blocks)

end Implicit

namespace Explicit

/-- First-order summary of a block list of mm-explicit.c. -/
def bsummary (l : List Block) : List (Nat × Nat × Bool) :=
  l.map (fun b => (b.addr, tag_size b.header, tag_allocated b.header))

/-- A 16-byte allocation fills an 80-byte region exactly.  Reallocating the
block to 32 bytes then cannot obtain a new block: `mm_malloc` itself returns
`NULL` with the heap unchanged, but `mm_realloc`, which never checks that
result, goes on to `memcpy(NULL, old_ptr, 16)` — a null dereference,
undefined (`none` in the model).  Returned are the original pointer, the
failing `mm_malloc`'s result together with the heap summary it leaves, and
`mm_realloc`'s result (`none` standing for the undefined execution). -/
def realloc_oom_demo :
    Option (Option Nat × Option (Option Nat × List (Nat × Nat × Bool) × List Nat) ×
      Option (Option Nat)) := do
  let s0 ← mm_init 80
  let (p, s1) ← mm_malloc s0 16
  let m := (mm_malloc s1 32).map (fun r => (r.1, bsummary r.2.blocks, r.2.freeList))
  let r := (mm_realloc s1 p 32).map (fun t => t.1)
  some (p, m, r)

/-- The spec's coalescing scenario: allocate 16 and 32 bytes, free both in
order; the second free merges the two blocks eagerly. -/
def coalesce_pair_demo : Option (List (Nat × Nat × Bool) × List Nat) := do
  let s0 ← mm_init 10000
  let (p1, s1) ← mm_malloc s0 16
  let (p2, s2) ← mm_malloc s1 32
  let s3 ← mm_free s2 p1
  let s4 ← mm_free s3 p2
  some (bsummary s4.blocks, s4.freeList)

/-- Four 16-byte allocations; freeing the first and third and then the
second makes the last free a 3-way merge of predecessor, self and
successor, leaving one free block and one free-list entry. -/
def coalesce_threeway_demo : Option (List (Nat × Nat × Bool) × List Nat) := do
  let s0 ← mm_init 10000
  let (p1, s1) ← mm_malloc s0 16
  let (p2, s2) ← mm_malloc s1 16
  let (p3, s3) ← mm_malloc s2 16
  let (_, s4) ← mm_malloc s3 16
  let s5 ← mm_free s4 p1
  let s6 ← mm_free s5 p3
  let s7 ← mm_free s6 p2
  some (bsummary s7.blocks, s7.freeList)

/-- Allocate 32, 16 and 48 bytes; free the first and the third blocks; then
request 16 bytes.  The free list is [32, 112] in insertion order, and the
scan over its reversal picks the most recently freed block (address 112,
size 48) although the older candidate (address 32, size 32) sits lower and
fits more tightly.  Returned are the served pointer, the free list before
the request, and the final block summary and free list. -/
def fit_policy_demo :
    Option (Option Nat × List Nat × List (Nat × Nat × Bool) × List Nat) := do
  let s0 ← mm_init 10000
  let (p1, s1) ← mm_malloc s0 32
  let (p2, s2) ← mm_malloc s1 16
  let (p3, s3) ← mm_malloc s2 48
  let s4 ← mm_free s3 p1
  let s5 ← mm_free s4 p3
  let (q, s6) ← mm_malloc s5 16
  some (q, s5.freeList, bsummary s6.blocks, s6.freeList)

/-- A zero-byte allocation on a fresh heap of mm-explicit.c. -/
def malloc0_demo : Option (Option Nat × List (Nat × Nat × Bool)) := do
  let s0 ← mm_init 100
  let (p, s1) ← mm_malloc s0 0
  some (p, bsummary s1.blocks)

/-- The heap after `mm_init 10000; p := mm_malloc 16; mm_free p`: one free
16-byte block at address 32, linked as the only free-list node. -/
def c6_state : State :=
  { blocks := [⟨32, 16, 16⟩], freeList := [32], brk := 80, limit := 10000,
    epi := 72, data := fun _ => 0 }

end Explicit

/-! ## List surgery helpers -/

lemma map_update_eq {α : Type} {l1 l2 : List α} {b : α} (p : α → Bool) (f : α → α)
    (h1 : ∀ x ∈ l1, p x = false) (h2 : ∀ x ∈ l2, p x = false) (hb : p b = true) :
    (l1 ++ b :: l2).map (fun x => if p x then f x else x) = l1 ++ f b :: l2 := by
  rw [List.map_append, List.map_cons, if_pos hb]
  congr 1
  · rw [List.map_congr_left (fun x hx => by rw [if_neg (by simp [h1 x hx])])]
    exact List.map_id' l1
  · congr 1
    rw [List.map_congr_left (fun x hx => by rw [if_neg (by simp [h2 x hx])])]
    exact List.map_id' l2

lemma filter_remove_eq {α : Type} {l1 l2 : List α} {b : α} (p : α → Bool)
    (h1 : ∀ x ∈ l1, p x = true) (h2 : ∀ x ∈ l2, p x = true) (hb : p b = false) :
    (l1 ++ b :: l2).filter p = l1 ++ l2 := by
  rw [List.filter_append, List.filter_cons, hb]
  simp only [Bool.false_eq_true, if_false]
  rw [List.filter_eq_self.mpr h1, List.filter_eq_self.mpr h2]

/-! ## Tag-word arithmetic -/

lemma tag_size_eq (w : Nat) : tag_size w = 2 * (w / 2 % 2 ^ 63) := by
  have h1 : (w &&& (2 ^ 64 - 2)) % 2 = 0 := by
    rcases Nat.mod_two_eq_zero_or_one (w &&& (2 ^ 64 - 2)) with h | h
    · exact h
    · rw [Nat.and_mod_two_eq_one] at h
      omega
  have h2 : (w &&& (2 ^ 64 - 2)) / 2 = w / 2 % 2 ^ 63 := by
    rw [Nat.and_div_two]
    have h : ((2 : Nat) ^ 64 - 2) / 2 = 2 ^ 63 - 1 := by norm_num
    rw [h, Nat.and_pow_two_sub_one_eq_mod]
  have h3 := Nat.div_add_mod (w &&& (2 ^ 64 - 2)) 2
  unfold tag_size
  omega

lemma tag_size_lt (w : Nat) : tag_size w < 2 ^ 64 := by
  have h := Nat.mod_lt (w / 2) (show 0 < 2 ^ 63 by positivity)
  rw [tag_size_eq]
  omega

lemma tag_size_even (w : Nat) : tag_size w % 2 = 0 := by
  rw [tag_size_eq]; omega

lemma mk_tag_eq_add (size : Nat) (h2 : size % 2 = 0) (a : Bool) :
    mk_tag size a = size + (if a then 1 else 0) := by
  cases a
  · simp [mk_tag]
  · show size ||| 1 = size + 1
    have hm : (size ||| 1) % 2 = 1 := by
      rw [Nat.or_mod_two_eq_one]; right; rfl
    have hd : (size ||| 1) / 2 = size / 2 := by
      rw [Nat.or_div_two]; norm_num
    have h := Nat.div_add_mod (size ||| 1) 2
    omega

lemma tag_size_mk_tag (size : Nat) (h2 : size % 2 = 0) (hlt : size < 2 ^ 64) (a : Bool) :
    tag_size (mk_tag size a) = size := by
  rw [tag_size_eq, mk_tag_eq_add size h2 a]
  have h1 : (size + (if a then 1 else 0)) / 2 = size / 2 := by
    cases a <;> simp
    omega
  rw [h1, Nat.mod_eq_of_lt (show size / 2 < 2 ^ 63 by omega)]
  omega

lemma tag_allocated_mk_tag (size : Nat) (h2 : size % 2 = 0) (a : Bool) :
    tag_allocated (mk_tag size a) = a := by
  unfold tag_allocated
  rw [Nat.and_one_is_mod, mk_tag_eq_add size h2 a]
  cases a <;> simp <;> omega

lemma round_up_mod (x : Nat) : round_up x ALIGNMENT % ALIGNMENT = 0 := by
  unfold round_up ALIGNMENT WORD
  omega

lemma round_up_lt (x : Nat) : round_up x ALIGNMENT < 2 ^ 64 := by
  unfold round_up ALIGNMENT WORD
  have h : (x + (2 * 8 - 1)) % 2 ^ 64 < 2 ^ 64 := Nat.mod_lt _ (by positivity)
  omega

/-! ## Scanning strategy: canonical blocks and the scan loop -/

namespace Implicit

lemma bsize_set_header (sz : Nat) (h2 : sz % 2 = 0) (hlt : sz < 2 ^ 64) (a : Bool) :
    bsize (set_header sz a) = sz := tag_size_mk_tag sz h2 hlt a

lemma balloc_set_header (sz : Nat) (h2 : sz % 2 = 0) (a : Bool) :
    balloc (set_header sz a) = a := tag_allocated_mk_tag sz h2 a

lemma align_even {sz : Nat} (h : sz % ALIGNMENT = 0) : sz % 2 = 0 := by
  unfold ALIGNMENT WORD at h
  omega

lemma block_ok_set_header (sz : Nat) (h16 : sz % ALIGNMENT = 0) (hlt : sz < 2 ^ 64) (a : Bool) :
    block_ok (set_header sz a) := by
  have h2 := align_even h16
  refine ⟨?_, ?_⟩
  · rw [bsize_set_header sz h2 hlt a]
    exact h16
  · show mk_tag sz a = mk_tag (bsize (set_header sz a)) (balloc (set_header sz a))
    rw [bsize_set_header sz h2 hlt a, balloc_set_header sz h2 a]

lemma block_ok.canon {b : Block} (h : block_ok b) : b = set_header (bsize b) (balloc b) := by
  cases b with
  | mk w => exact congrArg Block.mk h.2

lemma sum_bsize_mod (l : List Block) (h : ∀ b ∈ l, block_ok b) :
    (l.map bsize).sum % ALIGNMENT = 0 := by
  induction l with
  | nil => simp
  | cons x xs ih =>
    simp only [List.map_cons, List.sum_cons]
    have hx := (h x (by simp)).1
    have hxs := ih (fun b hb => h b (by simp [hb]))
    unfold ALIGNMENT WORD at hx hxs ⊢
    omega

lemma place_ok (cs req : Nat) (hcs : cs % ALIGNMENT = 0) (hcslt : cs < 2 ^ 64)
    (hr : req % ALIGNMENT = 0) :
    ∀ b ∈ place cs req, block_ok b := by
  intro b hb
  unfold place at hb
  split at hb
  · simp only [List.mem_cons, List.not_mem_nil, or_false] at hb
    rcases hb with hb | hb
    · subst hb
      refine block_ok_set_header req hr ?_ true
      rename_i hsplit
      unfold sizeof_block ALIGNMENT WORD at *
      omega
    · subst hb
      refine block_ok_set_header (cs - req) ?_ (by omega) false
      unfold ALIGNMENT WORD at *
      omega
  · simp only [List.mem_cons, List.not_mem_nil, or_false] at hb
    subst hb
    exact block_ok_set_header cs hcs hcslt true

lemma merge_step_ok (done : List Block) (curr : Block)
    (hd : ∀ b ∈ done, block_ok b) (hc : block_ok curr) :
    block_ok (merge_step done curr).2.1 ∧
    (∀ b ∈ (merge_step done curr).2.2, block_ok b) ∧
    (merge_step done curr).1 = bsize (merge_step done curr).2.1 ∧
    (merge_step done curr).1 % ALIGNMENT = 0 := by
  cases done with
  | nil => exact ⟨hc, by intro b hb; simp only [merge_step, List.not_mem_nil] at hb, rfl, hc.1⟩
  | cons prev dtail =>
    have hprev := hd prev (by simp)
    simp only [merge_step]
    by_cases hm : (!balloc curr && !balloc prev) = true
    · rw [if_pos hm]
      have hsz : ((bsize curr + bsize prev) % 2 ^ 64) % ALIGNMENT = 0 := by
        have h1 := hc.1
        have h2 := hprev.1
        unfold ALIGNMENT WORD at *
        omega
      have hlt : (bsize curr + bsize prev) % 2 ^ 64 < 2 ^ 64 := Nat.mod_lt _ (by positivity)
      refine ⟨block_ok_set_header _ hsz hlt false, fun b hb => hd b (by simp [hb]), ?_, hsz⟩
      exact (bsize_set_header _ (align_even hsz) hlt false).symm
    · rw [if_neg hm]
      exact ⟨hc, hd, rfl, hc.1⟩

lemma scanAux_ok (required : Nat) (hreq : required % ALIGNMENT = 0) :
    ∀ todo done, (∀ b ∈ done, block_ok b) → (∀ b ∈ todo, block_ok b) →
      (∀ b ∈ (scanAux required done todo).2, block_ok b) ∧
      (∀ p, (scanAux required done todo).1 = some p → p % ALIGNMENT = 0) := by
  intro todo
  induction todo with
  | nil =>
    intro done hd _
    refine ⟨fun b hb => hd b (by simpa [scanAux] using hb), by simp [scanAux]⟩
  | cons curr rest ih =>
    intro done hd ht
    have hc := ht curr (by simp)
    have hrest : ∀ b ∈ rest, block_ok b := fun b hb => ht b (by simp [hb])
    obtain ⟨hcur, hdone', hsz, hszmod⟩ := merge_step_ok done curr hd hc
    show (∀ b ∈ (scanAux required done (curr :: rest)).2, block_ok b) ∧ _
    rw [scanAux]
    by_cases hfit :
        (!balloc (merge_step done curr).2.1 &&
          decide (required ≤ (merge_step done curr).1)) = true
    · rw [if_pos hfit]
      simp only [Bool.and_eq_true, decide_eq_true_eq] at hfit
      constructor
      · intro b hb
        simp only [List.mem_append, List.mem_reverse] at hb
        rcases hb with (hb | hb) | hb
        · exact hdone' b hb
        · refine place_ok _ _ hszmod ?_ hreq b hb
          rw [hsz]
          exact tag_size_lt _
        · exact hrest b hb
      · intro p hp
        have hsum := sum_bsize_mod _ hdone'
        simp only [Option.some.injEq] at hp
        subst hp
        unfold heap_base sizeof_block ALIGNMENT WORD at *
        omega
    · rw [if_neg hfit]
      exact ih ((merge_step done curr).2.1 :: (merge_step done curr).2.2)
        (by
          intro b hb
          rcases List.mem_cons.mp hb with hb | hb
          · subst hb; exact hcur
          · exact hdone' b hb)
        hrest

lemma free_at_spec (ptr : Nat) :
    ∀ bs a bs', free_at ptr a bs = some bs' →
      ∃ pre b post, bs = pre ++ b :: post ∧
        bs' = pre ++ set_header (bsize b) false :: post ∧
        ptr = a + (pre.map bsize).sum + sizeof_block := by
  intro bs
  induction bs with
  | nil => intro a bs' h; simp [free_at] at h
  | cons b rest ih =>
    intro a bs' h
    rw [free_at] at h
    split at h
    · rename_i heq
      refine ⟨[], b, rest, by simp, ?_, by simpa using heq.symm⟩
      simpa using h.symm
    · rename_i hne
      cases h2 : free_at ptr (a + bsize b) rest with
      | none => rw [h2] at h; simp at h
      | some rest' =>
        rw [h2] at h
        simp only [Option.some.injEq] at h
        obtain ⟨pre, c, post, h3, h4, h5⟩ := ih (a + bsize b) rest' h2
        refine ⟨b :: pre, c, post, by simp [h3], by simp [← h, h4], ?_⟩
        simp only [List.map_cons, List.sum_cons]
        omega

lemma size_at_spec (ptr : Nat) :
    ∀ bs a sz, size_at ptr a bs = some sz →
      ∃ pre b post, bs = pre ++ b :: post ∧ sz = bsize b ∧
        ptr = a + (pre.map bsize).sum + sizeof_block := by
  intro bs
  induction bs with
  | nil => intro a sz h; simp [size_at] at h
  | cons b rest ih =>
    intro a sz h
    rw [size_at] at h
    split at h
    · rename_i heq
      refine ⟨[], b, rest, by simp, by simpa using h.symm, by simpa using heq.symm⟩
    · obtain ⟨pre, c, post, h3, h4, h5⟩ := ih (a + bsize b) sz h
      refine ⟨b :: pre, c, post, by simp [h3], h4, ?_⟩
      simp only [List.map_cons, List.sum_cons]
      omega

/-- `mm_free` of the scanning strategy only rewrites the owning block's
header — same size, allocation bit cleared — and touches nothing else. -/
lemma mm_free_marks_only {s : State} {p : Nat} {s' : State}
    (h : mm_free s (some p) = some s') :
    s'.brk = s.brk ∧ s'.limit = s.limit ∧ s'.data = s.data ∧
    ∃ pre b post, s.blocks = pre ++ b :: post ∧
      s'.blocks = pre ++ set_header (bsize b) false :: post ∧
      p = heap_base + (pre.map bsize).sum + sizeof_block := by
  rw [mm_free] at h
  cases h2 : free_at p heap_base s.blocks with
  | none => rw [h2] at h; simp at h
  | some bs =>
    rw [h2] at h
    simp only [Option.some.injEq] at h
    obtain ⟨pre, b, post, h3, h4, h5⟩ := free_at_spec p s.blocks heap_base bs h2
    exact ⟨by rw [← h], by rw [← h], by rw [← h],
      pre, b, post, h3, by rw [← h]; exact h4, h5⟩

lemma mm_free_wf {s : State} {p : Option Nat} {s' : State}
    (hwf : Iwf s) (h : mm_free s p = some s') : Iwf s' := by
  cases p with
  | none =>
    rw [mm_free] at h
    simp only [Option.some.injEq] at h
    rw [← h]; exact hwf
  | some q =>
    obtain ⟨hbrk, hlim, hdata, pre, b, post, h3, h4, h5⟩ := mm_free_marks_only h
    refine ⟨?_, by rw [hbrk]; exact hwf.2⟩
    intro c hc
    rw [h4] at hc
    have hb : block_ok b := hwf.1 b (by rw [h3]; simp)
    rcases List.mem_append.mp hc with hc | hc
    · exact hwf.1 c (by rw [h3]; simp [hc])
    · rcases List.mem_cons.mp hc with hc | hc
      · subst hc
        exact block_ok_set_header (bsize b) hb.1 (tag_size_lt _) false
      · exact hwf.1 c (by rw [h3]; simp [hc])

lemma mm_malloc_wf (s : State) (n : Nat) (hwf : Iwf s) :
    Iwf (mm_malloc s n).2 ∧
    (∀ p, (mm_malloc s n).1 = some p → p % ALIGNMENT = 0) := by
  have hreq := round_up_mod (sizeof_block + n)
  have hreqlt := round_up_lt (sizeof_block + n)
  set required := round_up (sizeof_block + n) ALIGNMENT with hreqdef
  rw [mm_malloc]
  by_cases hempty : s.blocks.isEmpty
  · rw [if_pos hempty]
    by_cases hsbrk : s.brk + required ≤ s.limit
    · rw [if_pos hsbrk]
      constructor
      · refine ⟨?_, ?_⟩
        · intro b hb
          simp only [List.mem_singleton] at hb
          subst hb
          exact block_ok_set_header required hreq hreqlt true
        · show (s.brk + required) % ALIGNMENT = WORD
          have h2 := hwf.2
          unfold ALIGNMENT WORD at *
          omega
      · intro p hp
        simp only [Option.some.injEq] at hp
        subst hp
        have h2 := hwf.2
        unfold sizeof_block ALIGNMENT WORD at *
        omega
    · rw [if_neg hsbrk]
      exact ⟨hwf, by simp⟩
  · rw [if_neg hempty]
    have hscan := scanAux_ok required hreq s.blocks [] (by simp) hwf.1
    cases h2 : scanAux required [] s.blocks with
    | mk fst bs =>
      rw [h2] at hscan
      cases fst with
      | some payload =>
        exact ⟨⟨hscan.1, hwf.2⟩, fun p hp => hscan.2 p (by rw [← hp])⟩
      | none =>
        dsimp only
        rw [← hreqdef]
        by_cases hsbrk : s.brk + required ≤ s.limit
        · rw [if_pos hsbrk]
          constructor
          · refine ⟨?_, ?_⟩
            · intro b hb
              rcases List.mem_append.mp hb with hb | hb
              · exact hscan.1 b hb
              · simp only [List.mem_singleton] at hb
                subst hb
                exact block_ok_set_header required hreq hreqlt true
            · show (s.brk + required) % ALIGNMENT = WORD
              have h3 := hwf.2
              unfold ALIGNMENT WORD at *
              omega
          · intro p hp
            simp only [Option.some.injEq] at hp
            subst hp
            have h3 := hwf.2
            unfold sizeof_block ALIGNMENT WORD at *
            omega
        · rw [if_neg hsbrk]
          exact ⟨⟨hscan.1, hwf.2⟩, by simp⟩

lemma mm_realloc_wf {s : State} {op : Option Nat} {n : Nat} {r : Option Nat} {s' : State}
    (hwf : Iwf s) (h : mm_realloc s op n = some (r, s')) :
    Iwf s' ∧ (∀ q, r = some q → q % ALIGNMENT = 0) := by
  cases op with
  | none =>
    rw [mm_realloc] at h
    simp only [Option.some.injEq] at h
    have hm := mm_malloc_wf s n hwf
    rw [h] at hm
    exact hm
  | some p =>
    rw [mm_realloc] at h
    by_cases hz : n = 0
    · rw [if_pos hz] at h
      cases h2 : mm_free s (some p) with
      | none => rw [h2] at h; simp at h
      | some s2 =>
        rw [h2] at h
        simp only [Option.map_some', Option.some.injEq, Prod.mk.injEq] at h
        rw [← h.2]
        exact ⟨mm_free_wf hwf h2, fun q hq => by rw [← h.1] at hq; cases hq⟩
    · rw [if_neg hz] at h
      cases h2 : size_at p heap_base s.blocks with
      | none => rw [h2] at h; simp at h
      | some bsz =>
        rw [h2] at h
        simp only at h
        by_cases hsame : n = bsz - sizeof_block
        · rw [if_pos hsame] at h
          simp only [Option.some.injEq, Prod.mk.injEq] at h
          obtain ⟨pre, b, post, h3, h4, h5⟩ := size_at_spec p s.blocks heap_base bsz h2
          refine ⟨by rw [← h.2]; exact hwf, ?_⟩
          intro q hq
          rw [← h.1] at hq
          cases hq
          have hsum := sum_bsize_mod pre (fun c hc => hwf.1 c (by rw [h3]; simp [hc]))
          rw [h5]
          unfold heap_base sizeof_block ALIGNMENT WORD at *
          omega
        · rw [if_neg hsame] at h
          cases h6 : mm_malloc s n with
          | mk q1 s1 =>
            have hm := mm_malloc_wf s n hwf
            rw [h6] at h hm
            cases q1 with
            | none =>
              simp only [Option.some.injEq, Prod.mk.injEq] at h
              rw [← h.2]
              exact ⟨hm.1, fun q hq => by rw [← h.1] at hq; cases hq⟩
            | some q =>
              simp only at h
              cases h7 : mm_free (memcpy s1 q p (if bsz - sizeof_block < n then bsz - sizeof_block else n)) (some p) with
              | none => rw [h7] at h; simp at h
              | some s3 =>
                rw [h7] at h
                simp only [Option.map_some', Option.some.injEq, Prod.mk.injEq] at h
                have hwf2 : Iwf (memcpy s1 q p (if bsz - sizeof_block < n then bsz - sizeof_block else n)) := by
                  exact ⟨hm.1.1, hm.1.2⟩
                refine ⟨by rw [← h.2]; exact mm_free_wf hwf2 h7, ?_⟩
                intro q' hq'
                rw [← h.1] at hq'
                cases hq'
                exact hm.2 q rfl

lemma mm_calloc_wf (s : State) (a b : Nat) (hwf : Iwf s) :
    Iwf (mm_calloc s a b).2 ∧
    (∀ p, (mm_calloc s a b).1 = some p → p % ALIGNMENT = 0) := by
  rw [mm_calloc]
  have hm := mm_malloc_wf s (a * b % 2 ^ 64) hwf
  cases h2 : mm_malloc s (a * b % 2 ^ 64) with
  | mk q s1 =>
    rw [h2] at hm
    cases q with
    | none => exact ⟨hm.1, by simp⟩
    | some p =>
      exact ⟨⟨hm.1.1, hm.1.2⟩, fun r hr => by
        simp only [Option.some.injEq] at hr
        exact hr ▸ hm.2 p rfl⟩

lemma step_wf {s : State} {op : Op} {r : Option Nat} {s' : State}
    (hwf : Iwf s) (h : step s op = some (r, s')) :
    Iwf s' ∧ (∀ q, r = some q → q % ALIGNMENT = 0) := by
  cases op with
  | malloc n =>
    rw [step] at h
    simp only [Option.some.injEq] at h
    have hm := mm_malloc_wf s n hwf
    rw [h] at hm
    exact hm
  | free p =>
    rw [step] at h
    cases h2 : mm_free s p with
    | none => rw [h2] at h; simp at h
    | some s2 =>
      rw [h2] at h
      simp only [Option.map_some', Option.some.injEq, Prod.mk.injEq] at h
      rw [← h.2]
      exact ⟨mm_free_wf hwf h2, fun q hq => by rw [← h.1] at hq; cases hq⟩
  | realloc p n => exact mm_realloc_wf hwf h
  | calloc a b =>
    rw [step] at h
    simp only [Option.some.injEq] at h
    have hm := mm_calloc_wf s a b hwf
    rw [h] at hm
    exact hm

lemma run_wf : ∀ (ops : List Op) (s : State) (sf : State) (rets : List (Option Nat)),
    Iwf s → run s ops = some (sf, rets) →
    Iwf sf ∧ ∀ r ∈ rets, ∀ p, r = some p → p % ALIGNMENT = 0 := by
  intro ops
  induction ops with
  | nil =>
    intro s sf rets hwf h
    rw [run] at h
    simp only [Option.some.injEq, Prod.mk.injEq] at h
    exact ⟨h.1 ▸ hwf, by rw [← h.2]; simp⟩
  | cons op ops ih =>
    intro s sf rets hwf h
    rw [run] at h
    cases h2 : step s op with
    | none => rw [h2] at h; simp at h
    | some rs =>
      rw [h2] at h
      cases rs with
      | mk r s' =>
        have hstep := step_wf hwf h2
        dsimp only at h
        cases h3 : run s' ops with
        | none => rw [h3] at h; simp at h
        | some frs =>
          rw [h3] at h
          cases frs with
          | mk sff rss =>
            simp only [Option.some.injEq, Prod.mk.injEq] at h
            obtain ⟨hf, hrs⟩ := ih s' sff rss hstep.1 h3
            refine ⟨h.1 ▸ hf, ?_⟩
            intro x hx p hp
            rw [← h.2] at hx
            rcases List.mem_cons.mp hx with hx | hx
            · exact hstep.2 p (by rw [← hp, hx])
            · exact hrs x hx p hp

/-- A fresh mm-implicit.c heap is well-formed. -/
lemma mm_init_wf {limit : Nat} {s : State} (h : mm_init limit = some s) : Iwf s := by
  rw [mm_init] at h
  split at h
  · simp only [Option.some.injEq] at h
    rw [← h]
    refine ⟨by simp, ?_⟩
    show (ALIGNMENT - sizeof_block) % ALIGNMENT = WORD
    decide
  · cases h

/-- `mm_malloc` of mm-implicit.c never touches the payload bytes. -/
lemma mm_malloc_data (s : State) (n : Nat) : ((mm_malloc s n).2).data = s.data := by
  rw [mm_malloc]
  split
  · split
    · rfl
    · rfl
  · split
    · rfl
    · split
      · rfl
      · rfl

end Implicit

/-! ## Indexed strategy: canonical blocks, word reads, and heap structure -/

namespace Explicit

lemma addr_set_boundaries (b : Block) (sz : Nat) (a : Bool) :
    (set_boundaries b sz a).addr = b.addr := rfl

lemma header_set_boundaries (b : Block) (sz : Nat) (a : Bool) :
    (set_boundaries b sz a).header = mk_tag sz a := rfl

lemma tag_size_set_boundaries (b : Block) (sz : Nat) (h2 : sz % 2 = 0) (hlt : sz < 2 ^ 64)
    (a : Bool) : tag_size (set_boundaries b sz a).header = sz := tag_size_mk_tag sz h2 hlt a

lemma tag_allocated_set_boundaries (b : Block) (sz : Nat) (h2 : sz % 2 = 0) (a : Bool) :
    tag_allocated (set_boundaries b sz a).header = a := tag_allocated_mk_tag sz h2 a

lemma eblock_ok_set_boundaries {b : Block} (hb : b.addr % ALIGNMENT = 0) {sz : Nat}
    (h : sz % ALIGNMENT = 0) (hlt : sz < 2 ^ 64) (a : Bool) :
    eblock_ok (set_boundaries b sz a) := by
  have h2 := Implicit.align_even h
  refine ⟨hb, ?_, ?_, rfl⟩
  · rw [tag_size_set_boundaries b sz h2 hlt a]
    exact h
  · show mk_tag sz a = mk_tag (tag_size (mk_tag sz a)) (tag_allocated (mk_tag sz a))
    rw [tag_size_mk_tag sz h2 hlt a, tag_allocated_mk_tag sz h2 a]

lemma footer_addr_set_boundaries (b : Block) (sz : Nat) (h2 : sz % 2 = 0) (hlt : sz < 2 ^ 64)
    (a : Bool) : footer_addr (set_boundaries b sz a) = b.addr + ALIGNMENT + sz := by
  unfold footer_addr
  rw [addr_set_boundaries, tag_size_set_boundaries b sz h2 hlt a]

lemma eblock_ok.size_mod {b : Block} (h : eblock_ok b) : tag_size b.header % ALIGNMENT = 0 :=
  h.2.1

lemma eblock_ok.free_header {b : Block} (h : eblock_ok b) (hf : tag_allocated b.header = false) :
    b.header = tag_size b.header := by
  have hc := h.2.2.1
  rw [hf] at hc
  simpa [mk_tag] using hc

lemma find?_addr {l : List Block} {a : Nat} {b : Block}
    (h : l.find? (fun x => x.addr == a) = some b) : b ∈ l ∧ b.addr = a := by
  have h1 := List.mem_of_find?_eq_some h
  have h2 := List.find?_some h
  simp only [beq_iff_eq] at h2
  exact ⟨h1, h2⟩

lemma footer_addr_gt (b : Block) : b.addr + ALIGNMENT ≤ footer_addr b := by
  unfold footer_addr
  omega

lemma addr_strict {s : State} (hinv : EInv s) :
    s.blocks.Pairwise (fun b c => b.addr < c.addr) := by
  refine hinv.ordered.imp ?_
  intro b c h
  have h2 := footer_addr_gt b
  unfold ALIGNMENT WORD at h2
  omega

lemma pairwise_lt_inj : ∀ (l : List Block),
    l.Pairwise (fun b c => b.addr < c.addr) →
    ∀ {b c : Block}, b ∈ l → c ∈ l → b.addr = c.addr → b = c := by
  intro l
  induction l with
  | nil => intro _ b c hb _ _; cases hb
  | cons a t ih =>
    intro hl b c hb hc he
    have hr := List.pairwise_cons.mp hl
    rcases List.mem_cons.mp hb with hb1 | hb1
    · rcases List.mem_cons.mp hc with hc1 | hc1
      · rw [hb1, hc1]
      · subst hb1
        have h2 := hr.1 c hc1
        omega
    · rcases List.mem_cons.mp hc with hc1 | hc1
      · subst hc1
        have h2 := hr.1 b hb1
        omega
      · exact ih hr.2 hb1 hc1 he

lemma addr_inj {s : State} (hinv : EInv s) {b c : Block} (hb : b ∈ s.blocks)
    (hc : c ∈ s.blocks) (h : b.addr = c.addr) : b = c :=
  pairwise_lt_inj s.blocks (addr_strict hinv) hb hc h

lemma read_word_cases {s : State} {a w : Nat} (h : read_word s a = some w) :
    (a = prologue_addr ∧ w = 1) ∨ (a = s.epi ∧ w = 1) ∨
    (∃ b, b ∈ s.blocks ∧ header_addr b = a ∧ w = b.header) ∨
    (∃ b, b ∈ s.blocks ∧ footer_addr b = a ∧ w = b.footer) := by
  unfold read_word at h
  by_cases h1 : a = prologue_addr
  · rw [if_pos h1] at h
    simp only [Option.some.injEq] at h
    exact Or.inl ⟨h1, h.symm⟩
  · rw [if_neg h1] at h
    by_cases h2 : a = s.epi
    · rw [if_pos h2] at h
      simp only [Option.some.injEq] at h
      exact Or.inr (Or.inl ⟨h2, h.symm⟩)
    · rw [if_neg h2] at h
      cases h3 : s.blocks.find? (fun b => header_addr b == a) with
      | some b =>
        rw [h3] at h
        simp only [Option.some.injEq] at h
        have h4 := List.mem_of_find?_eq_some h3
        have h5 := List.find?_some h3
        simp only [beq_iff_eq] at h5
        exact Or.inr (Or.inr (Or.inl ⟨b, h4, h5, h.symm⟩))
      | none =>
        rw [h3] at h
        cases h4 : s.blocks.find? (fun b => footer_addr b == a) with
        | none => rw [h4] at h; cases h
        | some b =>
          rw [h4] at h
          simp only [Option.some.injEq] at h
          have h5 := List.mem_of_find?_eq_some h4
          have h6 := List.find?_some h4
          simp only [beq_iff_eq] at h6
          exact Or.inr (Or.inr (Or.inr ⟨b, h5, h6, h.symm⟩))

/-- A free tag read at a block's own address under the invariant comes from
the address-adjacent predecessor's trailing tag. -/
lemma prev_free_block {s : State} (hinv : EInv s) {b : Block} (hb : b ∈ s.blocks)
    (h : is_prev_allocated s b = some false) :
    ∃ c, c ∈ s.blocks ∧ footer_addr c = b.addr ∧ tag_allocated c.header = false ∧
      read_word s b.addr = some (tag_size c.header) := by
  unfold is_prev_allocated at h
  cases hr : read_word s b.addr with
  | none => rw [hr] at h; cases h
  | some w =>
    rw [hr] at h
    simp only [Option.map_some', Option.some.injEq] at h
    have hfree : tag_allocated w = false := h
    rcases read_word_cases hr with ⟨_, hw⟩ | ⟨_, hw⟩ | ⟨c, hc, hca, hw⟩ | ⟨c, hc, hca, hw⟩
    · rw [hw] at hfree
      exact absurd hfree (by decide)
    · rw [hw] at hfree
      exact absurd hfree (by decide)
    · exfalso
      have h1 := (hinv.blocks_ok c hc).1
      have h2 := (hinv.blocks_ok b hb).1
      simp only [header_addr, ALIGNMENT, WORD] at hca h1 h2
      omega
    · have hcok := hinv.blocks_ok c hc
      have hch : c.footer = c.header := hcok.2.2.2
      rw [hch] at hw
      rw [hw] at hfree
      refine ⟨c, hc, hca, hfree, ?_⟩
      exact congrArg some (hw.trans (hcok.free_header hfree))

/-- A free successor probe under the invariant comes from the leading tag of
the block starting right at this block's trailing tag. -/
lemma next_free_block {s : State} (hinv : EInv s) {b : Block}
    (hb1 : b.addr % ALIGNMENT = 0) (hb2 : tag_size b.header % ALIGNMENT = 0)
    (hb3 : prologue_addr ≤ b.addr)
    (h : is_next_allocated s b = some false) :
    ∃ d, d ∈ s.blocks ∧ d.addr = footer_addr b ∧ tag_allocated d.header = false := by
  unfold is_next_allocated at h
  cases hr : read_word s (b.addr + ALIGNMENT + tag_size b.header + WORD) with
  | none => rw [hr] at h; cases h
  | some w =>
    rw [hr] at h
    simp only [Option.map_some', Option.some.injEq] at h
    have hw2 : tag_allocated w = false ∧ tag_size w ≠ 0 := by
      by_cases h0 : tag_size w ≠ 0
      · rw [if_pos h0] at h
        exact ⟨by simpa [tag_allocated] using h, h0⟩
      · rw [if_neg h0] at h
        cases h
    have hra : read_word s (footer_addr b + WORD) = some w := hr
    rcases read_word_cases hra with ⟨ha, hw⟩ | ⟨ha, hw⟩ | ⟨d, hd, hda, hw⟩ | ⟨d, hd, hda, hw⟩
    · exfalso
      have h2 := footer_addr_gt b
      unfold prologue_addr ALIGNMENT WORD at *
      omega
    · exfalso
      rw [hw] at hw2
      exact absurd hw2.1 (by decide)
    · refine ⟨d, hd, ?_, ?_⟩
      · unfold header_addr at hda
        unfold WORD at *
        omega
      · rw [← hw]
        exact hw2.1
    · exfalso
      have h1 := (hinv.blocks_ok d hd).1
      have h2 := (hinv.blocks_ok d hd).2.1
      unfold footer_addr at hda
      unfold ALIGNMENT WORD at *
      omega

/-- Under the invariant, a block whose trailing tag sits exactly at another
block's address immediately precedes it in the block chain. -/
lemma adjacent_split {s : State} (hinv : EInv s) {c b : Block}
    (hc : c ∈ s.blocks) (hb : b ∈ s.blocks) (hadj : footer_addr c = b.addr) :
    ∃ pre post, s.blocks = pre ++ c :: b :: post := by
  obtain ⟨p1, t1, h1⟩ := List.append_of_mem hc
  have hord := hinv.ordered
  rw [h1, List.pairwise_append] at hord
  have hct1 := List.pairwise_cons.mp hord.2.1
  have hbt1 : b ∈ t1 := by
    have hbmem := hb
    rw [h1] at hbmem
    rcases List.mem_append.mp hbmem with hmem | hmem
    · exfalso
      have h2 := hord.2.2 b hmem c (by simp)
      have h3 := footer_addr_gt b
      have h4 := footer_addr_gt c
      unfold ALIGNMENT WORD at *
      omega
    · rcases List.mem_cons.mp hmem with hmem | hmem
      · exfalso
        have h4 := footer_addr_gt c
        rw [hmem] at hadj
        unfold ALIGNMENT WORD at *
        omega
      · exact hmem
  obtain ⟨p2, t2, h2⟩ := List.append_of_mem hbt1
  cases p2 with
  | nil =>
    refine ⟨p1, t2, ?_⟩
    rw [h1, h2]
    simp
  | cons y p2' =>
    exfalso
    have hcy := hct1.1 y (by rw [h2]; simp)
    have ht1p := hct1.2
    rw [h2] at ht1p
    have hyb := (List.pairwise_cons.mp ht1p).1 b (by simp)
    have h3 := footer_addr_gt y
    unfold ALIGNMENT WORD at *
    omega

end Explicit

namespace Explicit

lemma update_block_decomp {s : State} {pre post : List Block} {b : Block}
    (hblocks : s.blocks = pre ++ b :: post)
    (hfresh : ∀ x ∈ pre, x.addr ≠ b.addr) (hfresh2 : ∀ x ∈ post, x.addr ≠ b.addr)
    (f : Block → Block) :
    (update_block s b.addr f).blocks = pre ++ f b :: post := by
  show (s.blocks.map fun x => if x.addr = b.addr then f x else x) = pre ++ f b :: post
  rw [hblocks, List.map_append, List.map_cons, if_pos rfl]
  congr 1
  · rw [List.map_congr_left (fun x hx => by rw [if_neg (hfresh x hx)])]
    exact List.map_id' pre
  · congr 1
    rw [List.map_congr_left (fun x hx => by rw [if_neg (hfresh2 x hx)])]
    exact List.map_id' post

lemma remove_block_decomp {s : State} {pre post : List Block} {b : Block}
    (hblocks : s.blocks = pre ++ b :: post)
    (hfresh : ∀ x ∈ pre, x.addr ≠ b.addr) (hfresh2 : ∀ x ∈ post, x.addr ≠ b.addr) :
    (remove_block s b.addr).blocks = pre ++ post := by
  show (s.blocks.filter fun x => x.addr != b.addr) = pre ++ post
  rw [hblocks, List.filter_append, List.filter_cons]
  have h0 : (b.addr != b.addr) = false := by simp
  rw [h0]
  simp only [Bool.false_eq_true, if_false]
  rw [List.filter_eq_self.mpr (fun x hx => by simpa using hfresh x hx),
      List.filter_eq_self.mpr (fun x hx => by simpa using hfresh2 x hx)]

lemma decomp_facts {s : State} (hinv : EInv s) {pre post : List Block} {b : Block}
    (h : s.blocks = pre ++ b :: post) :
    (∀ x ∈ pre, footer_addr x ≤ b.addr) ∧ (∀ x ∈ post, footer_addr b ≤ x.addr) ∧
    (∀ x ∈ pre, x.addr ≠ b.addr) ∧ (∀ x ∈ post, x.addr ≠ b.addr) := by
  have hord := hinv.ordered
  rw [h, List.pairwise_append] at hord
  have hcons := List.pairwise_cons.mp hord.2.1
  refine ⟨fun x hx => hord.2.2 x hx b (by simp), hcons.1, ?_, ?_⟩
  · intro x hx
    have h1 := hord.2.2 x hx b (by simp)
    have h2 := footer_addr_gt x
    unfold ALIGNMENT WORD at *
    omega
  · intro x hx
    have h1 := hcons.1 x hx
    have h2 := footer_addr_gt b
    unfold ALIGNMENT WORD at *
    omega

/-- The one memory transform shared by all three merges of `coalesce`:
absorb the address-adjacent successor `y` into `x` (rewrite `x`'s tags with
the summed size, free), unlink `y`'s free-list node, and drop `y` from the
block chain.  Preserves the invariant; the merged block ends exactly where
`y` ended. -/
lemma merge_blocks_preserv {t : State} (hinv : EInv t) {x y : Block} {szm : Nat}
    (hx : x ∈ t.blocks) (hy : y ∈ t.blocks)
    (hadj : footer_addr x = y.addr)
    (hxf : tag_allocated x.header = false)
    (hyf : tag_allocated y.header = false)
    (hszm : szm = (tag_size x.header + tag_size y.header + ALIGNMENT) % 2 ^ 64) :
    let res := remove_block (remove_linked_node_from_block
      (update_block t x.addr (fun blk => set_boundaries blk szm false)) y.addr) y.addr
    EInv res ∧
    res.freeList = t.freeList.erase y.addr ∧
    res.brk = t.brk ∧ res.limit = t.limit ∧ res.epi = t.epi ∧ res.data = t.data ∧
    res.blocks.length + 1 = t.blocks.length ∧
    set_boundaries x szm false ∈ res.blocks ∧
    footer_addr (set_boundaries x szm false) = footer_addr y := by
  intro res
  obtain ⟨pre, post, hdec⟩ := adjacent_split hinv hx hy hadj
  have hxok := hinv.blocks_ok x hx
  have hyok := hinv.blocks_ok y hy
  -- size bound: the merged span ends at y's trailing tag, below the epilogue
  have hyepi := hinv.below_epi y hy
  have hbound : tag_size x.header + tag_size y.header + ALIGNMENT < 2 ^ 64 := by
    have h1 : footer_addr x = x.addr + ALIGNMENT + tag_size x.header := rfl
    have h2 : footer_addr y = y.addr + ALIGNMENT + tag_size y.header := rfl
    have h3 := hinv.epi_brk
    have h4 := hinv.brk_le
    have h5 := hinv.limit_lt
    unfold ALIGNMENT WORD at *
    omega
  have hszm2 : szm = tag_size x.header + tag_size y.header + ALIGNMENT := by
    rw [hszm, Nat.mod_eq_of_lt hbound]
  have hszmod : szm % ALIGNMENT = 0 := by
    have h1 := hxok.2.1
    have h2 := hyok.2.1
    rw [hszm2]
    unfold ALIGNMENT WORD at *
    omega
  have hszlt : szm < 2 ^ 64 := hszm2 ▸ hbound
  have hsze := Implicit.align_even hszmod
  -- decomposition facts, at both shapes of the list
  have hdec1 : t.blocks = pre ++ x :: (y :: post) := hdec
  have hdec2 : t.blocks = (pre ++ [x]) ++ y :: post := by rw [hdec]; simp
  obtain ⟨hf1, hf2, hf3, hf4⟩ := decomp_facts hinv hdec1
  obtain ⟨hg1, hg2, hg3, hg4⟩ := decomp_facts hinv hdec2
  -- the updated x
  set x' := set_boundaries x szm false with hx'def
  have hx'addr : x'.addr = x.addr := rfl
  have hx'size : tag_size x'.header = szm := tag_size_set_boundaries x szm hsze hszlt false
  have hx'alloc : tag_allocated x'.header = false := tag_allocated_set_boundaries x szm hsze false
  have hx'foot : footer_addr x' = footer_addr y := by
    unfold footer_addr
    rw [hx'addr, hx'size, hszm2]
    have h1 : footer_addr x = x.addr + ALIGNMENT + tag_size x.header := rfl
    have h2 : footer_addr y = y.addr + ALIGNMENT + tag_size y.header := rfl
    omega
  have hx'ok : eblock_ok x' := eblock_ok_set_boundaries hxok.1 hszmod hszlt false
  -- compute the resulting block list
  have hxy : x.addr ≠ y.addr := by
    have h1 := footer_addr_gt x
    unfold ALIGNMENT WORD at *
    omega
  have hupd : (update_block t x.addr (fun blk => set_boundaries blk szm false)).blocks
      = pre ++ x' :: (y :: post) := by
    refine update_block_decomp hdec1 hf3 ?_ _
    intro z hz
    rcases List.mem_cons.mp hz with hz | hz
    · rw [hz]; exact fun he => hxy he.symm
    · have h1 := hf2 z (by simp [hz])
      have h2 := footer_addr_gt x
      have h3 := footer_addr_gt y
      unfold ALIGNMENT WORD at *
      omega
  have hblocks : res.blocks = pre ++ x' :: post := by
    show ((update_block t x.addr fun blk => set_boundaries blk szm false).blocks.filter
      fun z => z.addr != y.addr) = pre ++ x' :: post
    rw [hupd]
    have hshape : pre ++ x' :: (y :: post) = (pre ++ [x']) ++ y :: post := by simp
    rw [hshape, List.filter_append, List.filter_cons]
    have h0 : (y.addr != y.addr) = false := by simp
    rw [h0]
    simp only [Bool.false_eq_true, if_false]
    rw [List.filter_eq_self.mpr (fun z hz => by
        rcases List.mem_append.mp hz with hz | hz
        · simpa using hg3 z (by simp [hz])
        · simp only [List.mem_singleton] at hz
          rw [hz]
          simpa using fun he => hxy he),
      List.filter_eq_self.mpr (fun z hz => by simpa using hg4 z hz)]
    simp
  have hfl : res.freeList = t.freeList.erase y.addr := rfl
  have hbrk : res.brk = t.brk := rfl
  have hlim : res.limit = t.limit := rfl
  have hepi : res.epi = t.epi := rfl
  have hdata : res.data = t.data := rfl
  -- invariants of the result
  have hsync := hinv.sync
  have hymem : y.addr ∈ t.freeList := (hsync y hy).mp hyf
  have hxmem : x.addr ∈ t.freeList := (hsync x hx).mp hxf
  refine ⟨?_, hfl, hbrk, hlim, hepi, hdata, ?_, ?_, hx'foot⟩
  · have hordold := hinv.ordered
    rw [hdec1, List.pairwise_append] at hordold
    have hconsx := List.pairwise_cons.mp hordold.2.1
    have hconsy := List.pairwise_cons.mp hconsx.2
    refine ⟨?_, ?_, ?_, ?_, ?_, ?_, ?_, ?_, ?_, ?_, ?_, ?_⟩
    · -- blocks_ok
      intro z hz
      rw [hblocks] at hz
      rcases List.mem_append.mp hz with hz | hz
      · exact hinv.blocks_ok z (by rw [hdec1]; simp [hz])
      · rcases List.mem_cons.mp hz with hz | hz
        · rw [hz]; exact hx'ok
        · exact hinv.blocks_ok z (by rw [hdec1]; simp [hz])
    · rw [hbrk]; exact hinv.brk_mod
    · intro z hz
      rw [hblocks] at hz
      rcases List.mem_append.mp hz with hz | hz
      · exact hinv.addr_lb z (by rw [hdec1]; simp [hz])
      · rcases List.mem_cons.mp hz with hz | hz
        · rw [hz, hx'addr]; exact hinv.addr_lb x hx
        · exact hinv.addr_lb z (by rw [hdec1]; simp [hz])
    · -- ordered
      rw [hblocks, List.pairwise_append]
      refine ⟨hordold.1, ?_, ?_⟩
      · rw [List.pairwise_cons]
        refine ⟨?_, hconsy.2⟩
        intro z hz
        rw [hx'foot]
        exact hconsy.1 z hz
      · intro a ha z hz
        rcases List.mem_cons.mp hz with hz | hz
        · rw [hz, hx'addr]
          exact hordold.2.2 a ha x (by simp)
        · exact hordold.2.2 a ha z (by simp [hz])
    · -- below_epi
      intro z hz
      rw [hepi, hblocks] at *
      rcases List.mem_append.mp hz with hz | hz
      · exact hinv.below_epi z (by rw [hdec1]; simp [hz])
      · rcases List.mem_cons.mp hz with hz | hz
        · rw [hz, hx'foot]; exact hinv.below_epi y hy
        · exact hinv.below_epi z (by rw [hdec1]; simp [hz])
    · rw [hepi, hbrk]; exact hinv.epi_brk
    · rw [hepi]; exact hinv.prologue_epi
    · -- sync
      intro z hz
      rw [hblocks] at hz
      rw [hfl]
      rcases List.mem_append.mp hz with hz | hz
      · have hzmem : z ∈ t.blocks := by rw [hdec1]; simp [hz]
        have hne : z.addr ≠ y.addr := by
          have h1 := hf1 z hz
          have h2 := footer_addr_gt z
          have h3 := footer_addr_gt x
          rw [← hadj]
          unfold ALIGNMENT WORD at *
          omega
        rw [List.mem_erase_of_ne hne]
        exact hsync z hzmem
      · rcases List.mem_cons.mp hz with hz | hz
        · rw [hz, hx'addr]
          simp only [hx'alloc]
          rw [List.mem_erase_of_ne hxy]
          exact ⟨fun _ => hxmem, fun _ => trivial⟩
        · have hzmem : z ∈ t.blocks := by rw [hdec1]; simp [hz]
          have hne : z.addr ≠ y.addr := hg4 z hz
          rw [List.mem_erase_of_ne hne]
          exact hsync z hzmem
    · rw [hfl]; exact hinv.nodup.erase _
    · -- backed
      intro a ha
      rw [hfl] at ha
      have hamem : a ∈ t.freeList := List.mem_of_mem_erase ha
      have hane : a ≠ y.addr := (List.Nodup.mem_erase_iff hinv.nodup).mp ha |>.1
      obtain ⟨z, hz, hza⟩ := hinv.backed a hamem
      rw [hdec1] at hz
      rcases List.mem_append.mp hz with hz | hz
      · exact ⟨z, by rw [hblocks]; simp [hz], hza⟩
      · rcases List.mem_cons.mp hz with hz | hz
        · refine ⟨x', by rw [hblocks]; simp, ?_⟩
          rw [hx'addr, ← hza, hz]
        · rcases List.mem_cons.mp hz with hz | hz
          · exfalso; rw [hz] at hza; exact hane hza.symm
          · exact ⟨z, by rw [hblocks]; simp [hz], hza⟩
    · rw [hbrk, hlim]; exact hinv.brk_le
    · rw [hlim]; exact hinv.limit_lt
  · rw [hblocks, hdec1]
    simp [List.length_append]
    omega
  · rw [hblocks]
    exact List.mem_append.mpr (Or.inr (List.mem_cons_self _ _))

end Explicit

namespace Explicit

/-- `coalesce` preserves the structural invariant and touches neither the
break, the capacity, the epilogue, nor the payload bytes. -/
lemma coalesce_preserv {s : State} (hinv : EInv s) {b : Block} (hb : b ∈ s.blocks)
    (hfree : tag_allocated b.header = false)
    {s' : State} (h : coalesce s b = some s') :
    EInv s' ∧ s'.brk = s.brk ∧ s'.limit = s.limit ∧ s'.epi = s.epi ∧ s'.data = s.data ∧
    (s'.blocks.length < s.blocks.length ∨ s' = s) := by
  have hbok := hinv.blocks_ok b hb
  unfold coalesce at h
  cases hpa : is_prev_allocated s b with
  | none => rw [hpa] at h; cases h
  | some pa =>
    rw [hpa] at h
    dsimp only at h
    cases pa with
    | false =>
      -- previous block free: absorb b into it
      rw [if_pos (show (!false) = true from rfl)] at h
      obtain ⟨c, hc, hcadj, hcfree, hread⟩ := prev_free_block hinv hb hpa
      have hgps : get_prev_size s b = some (tag_size c.header) := hread
      rw [hgps] at h
      dsimp only at h
      have hcok := hinv.blocks_ok c hc
      have hpred : b.addr - tag_size c.header - ALIGNMENT = c.addr := by
        have h1 : footer_addr c = c.addr + ALIGNMENT + tag_size c.header := rfl
        omega
      have hfind : (s.blocks.find? (fun x =>
          x.addr == b.addr - tag_size c.header - ALIGNMENT)).isSome = true := by
        cases hfc : s.blocks.find? (fun x => x.addr == b.addr - tag_size c.header - ALIGNMENT) with
        | some _ => rfl
        | none =>
          exfalso
          have h2 := List.find?_eq_none.mp hfc c hc
          simp [hpred] at h2
      rw [if_pos hfind] at h
      -- first merge: c absorbs b
      have hszm1 : (tag_size b.header + (tag_size c.header + ALIGNMENT)) % 2 ^ 64
          = (tag_size c.header + tag_size b.header + ALIGNMENT) % 2 ^ 64 := by
        omega
      have hm := merge_blocks_preserv hinv hc hb hcadj hcfree hfree hszm1
      rw [hpred] at h
      set res := remove_block (remove_linked_node_from_block
        (update_block s c.addr (fun blk => set_boundaries blk
          ((tag_size b.header + (tag_size c.header + ALIGNMENT)) % 2 ^ 64) false)) b.addr) b.addr
        with hresdef
      obtain ⟨hinv2, hfl2, hbrk2, hlim2, hepi2, hdata2, hlen2, hx'mem, hx'foot⟩ := hm
      cases hna : is_next_allocated res b with
      | none => rw [hna] at h; cases h
      | some na =>
        rw [hna] at h
        dsimp only at h
        cases na with
        | true =>
          rw [if_neg (by simp)] at h
          simp only [Option.some.injEq] at h
          rw [← h]
          exact ⟨hinv2, hbrk2, hlim2, hepi2, hdata2, Or.inl (by omega)⟩
        | false =>
          rw [if_pos (show (!false) = true from rfl)] at h
          obtain ⟨d, hd, hdadj, hdfree⟩ := next_free_block hinv2 hbok.1 hbok.2.1
            (hinv.addr_lb b hb) hna
          -- d starts where the merged block ends
          set x' := set_boundaries c ((tag_size b.header + (tag_size c.header + ALIGNMENT))
            % 2 ^ 64) false with hx'def
          have hdadj2 : d.addr = footer_addr x' := by rw [hx'foot, ← hdadj]
          cases hfd : res.blocks.find? (fun x => x.addr == b.addr + tag_size b.header
              + ALIGNMENT) with
          | none =>
            exfalso
            have : d.addr = b.addr + tag_size b.header + ALIGNMENT := by
              rw [hdadj]
              unfold footer_addr
              omega
            have h2 := List.find?_eq_none.mp hfd d hd
            simp [this] at h2
          | some d0 =>
            rw [hfd] at h
            dsimp only at h
            obtain ⟨hd0mem, hd0addr⟩ := find?_addr hfd
            have hd0 : d0 = d := by
              refine addr_inj hinv2 hd0mem hd ?_
              rw [hd0addr, hdadj]
              unfold footer_addr
              omega
            rw [hd0] at h
            -- second merge: the merged block absorbs d
            have hx'free : tag_allocated x'.header = false := by
              refine tag_allocated_set_boundaries c _ ?_ false
              have e1 := tag_size_even b.header
              have e2 := tag_size_even c.header
              unfold ALIGNMENT WORD
              omega
            have hx'size : tag_size x'.header
                = (tag_size b.header + (tag_size c.header + ALIGNMENT)) % 2 ^ 64 := by
              refine tag_size_set_boundaries c _ ?_ (Nat.mod_lt _ (by positivity)) false
              have e1 := tag_size_even b.header
              have e2 := tag_size_even c.header
              unfold ALIGNMENT WORD
              omega
            have hszm2 : ((tag_size b.header + (tag_size c.header + ALIGNMENT)) % 2 ^ 64
                + (tag_size d.header + ALIGNMENT)) % 2 ^ 64
                = (tag_size x'.header + tag_size d.header + ALIGNMENT) % 2 ^ 64 := by
              rw [hx'size]
              omega
            have hm2 := merge_blocks_preserv hinv2 hx'mem hd hdadj2.symm hx'free hdfree hszm2
            obtain ⟨hinv3, _, hbrk3, hlim3, hepi3, hdata3, hlen3, _, _⟩ := hm2
            have hxaddr : x'.addr = c.addr := rfl
            rw [hxaddr] at hinv3 hbrk3 hlim3 hepi3 hdata3
            have hdaddr_eq : d.addr = b.addr + tag_size b.header + ALIGNMENT := by
              rw [hdadj]
              unfold footer_addr
              omega
            rw [hdaddr_eq] at hinv3 hbrk3 hlim3 hepi3 hdata3
            simp only [Option.some.injEq] at h
            have hlen3b := hlen3
            rw [hxaddr, hdaddr_eq] at hlen3b
            rw [← h]
            refine ⟨hinv3, ?_, ?_, ?_, ?_, Or.inl (by omega)⟩
            · rw [hbrk3, hbrk2]
            · rw [hlim3, hlim2]
            · rw [hepi3, hepi2]
            · rw [hdata3, hdata2]
    | true =>
      -- previous block allocated: possibly absorb the successor into b
      rw [if_neg (by simp)] at h
      cases hna : is_next_allocated s b with
      | none => rw [hna] at h; cases h
      | some na =>
        rw [hna] at h
        dsimp only at h
        cases na with
        | true =>
          rw [if_neg (by simp)] at h
          simp only [Option.some.injEq] at h
          rw [← h]
          exact ⟨hinv, rfl, rfl, rfl, rfl, Or.inr rfl⟩
        | false =>
          rw [if_pos (show (!false) = true from rfl)] at h
          obtain ⟨d, hd, hdadj, hdfree⟩ := next_free_block hinv hbok.1 hbok.2.1
            (hinv.addr_lb b hb) hna
          cases hfd : s.blocks.find? (fun x => x.addr == b.addr + tag_size b.header
              + ALIGNMENT) with
          | none =>
            exfalso
            have hda : d.addr = b.addr + tag_size b.header + ALIGNMENT := by
              rw [hdadj]
              unfold footer_addr
              omega
            have h2 := List.find?_eq_none.mp hfd d hd
            simp [hda] at h2
          | some d0 =>
            rw [hfd] at h
            dsimp only at h
            obtain ⟨hd0mem, hd0addr⟩ := find?_addr hfd
            have hd0 : d0 = d := by
              refine addr_inj hinv hd0mem hd ?_
              rw [hd0addr, hdadj]
              unfold footer_addr
              omega
            rw [hd0] at h
            have hszm3 : (tag_size b.header + (tag_size d.header + ALIGNMENT)) % 2 ^ 64
                = (tag_size b.header + tag_size d.header + ALIGNMENT) % 2 ^ 64 := by
              omega
            have hm := merge_blocks_preserv hinv hb hd
              (by rw [hdadj]) hfree hdfree hszm3
            obtain ⟨hinv2, _, hbrk2, hlim2, hepi2, hdata2, hlenb, _, _⟩ := hm
            have hdaddr_eq : d.addr = b.addr + tag_size b.header + ALIGNMENT := by
              rw [hdadj]
              unfold footer_addr
              omega
            rw [hdaddr_eq] at hinv2 hbrk2 hlim2 hepi2 hdata2 hlenb
            simp only [Option.some.injEq] at h
            rw [← h]
            exact ⟨hinv2, hbrk2, hlim2, hepi2, hdata2, Or.inl (by omega)⟩

end Explicit

namespace Explicit

/-- Marking a block free (same size) and appending its node preserves the
invariant, provided its node was not already linked. -/
lemma mark_free_append_preserv {s : State} (hinv : EInv s) {b : Block} (hb : b ∈ s.blocks)
    (hnotin : b.addr ∉ s.freeList) :
    let s2 := add_linked_node_to_block (update_block s b.addr
      (fun blk => set_boundaries blk (tag_size blk.header) false)) b.addr
    EInv s2 ∧ s2.brk = s.brk ∧ s2.limit = s.limit ∧ s2.epi = s.epi ∧ s2.data = s.data ∧
    set_boundaries b (tag_size b.header) false ∈ s2.blocks ∧
    s2.freeList = s.freeList ++ [b.addr] := by
  intro s2
  obtain ⟨pre, post, hdec⟩ := List.append_of_mem hb
  obtain ⟨hf1, hf2, hf3, hf4⟩ := decomp_facts hinv hdec
  have hbok := hinv.blocks_ok b hb
  set b' := set_boundaries b (tag_size b.header) false with hb'def
  have hb'addr : b'.addr = b.addr := rfl
  have hb'size : tag_size b'.header = tag_size b.header :=
    tag_size_set_boundaries b _ (tag_size_even _) (tag_size_lt _) false
  have hb'alloc : tag_allocated b'.header = false :=
    tag_allocated_set_boundaries b _ (tag_size_even _) false
  have hb'foot : footer_addr b' = footer_addr b := by
    unfold footer_addr
    rw [hb'addr, hb'size]
  have hb'ok : eblock_ok b' := eblock_ok_set_boundaries hbok.1 hbok.2.1 (tag_size_lt _) false
  have hupd : (update_block s b.addr
      (fun blk => set_boundaries blk (tag_size blk.header) false)).blocks
      = pre ++ b' :: post := update_block_decomp hdec hf3 hf4 _
  have hblocks : s2.blocks = pre ++ b' :: post := hupd
  have hfl : s2.freeList = s.freeList ++ [b.addr] := rfl
  refine ⟨⟨?_, hinv.brk_mod, ?_, ?_, ?_, hinv.epi_brk, hinv.prologue_epi, ?_, ?_, ?_,
    hinv.brk_le, hinv.limit_lt⟩, rfl, rfl, rfl, rfl, ?_, hfl⟩
  · intro z hz
    rw [hblocks] at hz
    rcases List.mem_append.mp hz with hz | hz
    · exact hinv.blocks_ok z (by rw [hdec]; simp [hz])
    · rcases List.mem_cons.mp hz with hz | hz
      · rw [hz]; exact hb'ok
      · exact hinv.blocks_ok z (by rw [hdec]; simp [hz])
  · intro z hz
    rw [hblocks] at hz
    rcases List.mem_append.mp hz with hz | hz
    · exact hinv.addr_lb z (by rw [hdec]; simp [hz])
    · rcases List.mem_cons.mp hz with hz | hz
      · rw [hz, hb'addr]; exact hinv.addr_lb b hb
      · exact hinv.addr_lb z (by rw [hdec]; simp [hz])
  · have hord := hinv.ordered
    rw [hdec, List.pairwise_append] at hord
    have hcons := List.pairwise_cons.mp hord.2.1
    rw [hblocks, List.pairwise_append, List.pairwise_cons]
    refine ⟨hord.1, ⟨?_, hcons.2⟩, ?_⟩
    · intro z hz
      rw [hb'foot]
      exact hcons.1 z hz
    · intro a ha z hz
      rcases List.mem_cons.mp hz with hz | hz
      · rw [hz, hb'addr]
        exact hord.2.2 a ha b (by simp)
      · exact hord.2.2 a ha z (by simp [hz])
  · intro z hz
    rw [hblocks] at hz
    show footer_addr z + WORD ≤ s.epi
    rcases List.mem_append.mp hz with hz | hz
    · exact hinv.below_epi z (by rw [hdec]; simp [hz])
    · rcases List.mem_cons.mp hz with hz | hz
      · rw [hz, hb'foot]; exact hinv.below_epi b hb
      · exact hinv.below_epi z (by rw [hdec]; simp [hz])
  · intro z hz
    rw [hblocks] at hz
    rw [hfl, List.mem_append, List.mem_singleton]
    rcases List.mem_append.mp hz with hz | hz
    · have hzne : z.addr ≠ b.addr := hf3 z hz
      have hzs := hinv.sync z (by rw [hdec]; simp [hz])
      constructor
      · intro hfr
        exact Or.inl (hzs.mp hfr)
      · intro hor
        rcases hor with hor | hor
        · exact hzs.mpr hor
        · exact absurd hor hzne
    · rcases List.mem_cons.mp hz with hz | hz
      · rw [hz, hb'addr]
        simp only [hb'alloc]
        exact ⟨fun _ => Or.inr trivial, fun _ => trivial⟩
      · have hzne : z.addr ≠ b.addr := hf4 z hz
        have hzs := hinv.sync z (by rw [hdec]; simp [hz])
        constructor
        · intro hfr
          exact Or.inl (hzs.mp hfr)
        · intro hor
          rcases hor with hor | hor
          · exact hzs.mpr hor
          · exact absurd hor hzne
  · rw [hfl]
    refine List.Nodup.append hinv.nodup (by simp) ?_
    intro a ha hb2
    simp only [List.mem_singleton] at hb2
    rw [hb2] at ha
    exact hnotin ha
  · intro a ha
    rw [hfl, List.mem_append, List.mem_singleton] at ha
    rcases ha with ha | ha
    · obtain ⟨z, hz, hza⟩ := hinv.backed a ha
      rw [hdec] at hz
      rcases List.mem_append.mp hz with hz | hz
      · exact ⟨z, by rw [hblocks]; simp [hz], hza⟩
      · rcases List.mem_cons.mp hz with hz | hz
        · refine ⟨b', by rw [hblocks]; simp, ?_⟩
          rw [hb'addr, ← hza, hz]
        · exact ⟨z, by rw [hblocks]; simp [hz], hza⟩
    · refine ⟨b', by rw [hblocks]; simp, ?_⟩
      rw [hb'addr, ha]
  · rw [hblocks]
    exact List.mem_append.mpr (Or.inr (List.mem_cons_self _ _))

/-- `mm_free` preserves the structural invariant; it never touches the break,
the capacity, the epilogue, or the payload bytes. -/
lemma mm_free_preserv {s : State} (hinv : EInv s) {p : Option Nat} {s' : State}
    (h : mm_free s p = some s') :
    EInv s' ∧ s'.brk = s.brk ∧ s'.limit = s.limit ∧ s'.epi = s.epi ∧ s'.data = s.data := by
  cases p with
  | none =>
    rw [mm_free] at h
    simp only [Option.some.injEq] at h
    rw [← h]
    exact ⟨hinv, rfl, rfl, rfl, rfl⟩
  | some q =>
    rw [mm_free] at h
    cases hfd : s.blocks.find? (fun x => x.addr == q - ALIGNMENT) with
    | none => rw [hfd] at h; cases h
    | some b =>
      rw [hfd] at h
      dsimp only at h
      obtain ⟨hbmem, hbaddr⟩ := find?_addr hfd
      by_cases hmem : b.addr ∈ s.freeList
      · rw [if_pos hmem] at h; cases h
      · rw [if_neg hmem] at h
        have hmk := mark_free_append_preserv hinv hbmem hmem
        obtain ⟨hinv2, hbrk2, hlim2, hepi2, hdata2, hb2mem, hfl2⟩ := hmk
        set s2 := add_linked_node_to_block (update_block s b.addr
          (fun blk => set_boundaries blk (tag_size blk.header) false)) b.addr with hs2def
        set b2 := set_boundaries b (tag_size b.header) false with hb2def
        have hb2free : tag_allocated b2.header = false :=
          tag_allocated_set_boundaries b _ (tag_size_even _) false
        cases hpa : is_prev_allocated s2 b2 with
        | none => rw [hpa] at h; cases h
        | some pa =>
          rw [hpa] at h
          dsimp only at h
          cases pa with
          | false =>
            rw [if_pos (show (!false) = true from rfl)] at h
            have hco := coalesce_preserv hinv2 hb2mem hb2free h
            exact ⟨hco.1, hco.2.1.trans hbrk2, hco.2.2.1.trans hlim2,
              hco.2.2.2.1.trans hepi2, hco.2.2.2.2.1.trans hdata2⟩
          | true =>
            rw [if_neg (by simp)] at h
            cases hna : is_next_allocated s2 b2 with
            | none => rw [hna] at h; cases h
            | some na =>
              rw [hna] at h
              dsimp only at h
              cases na with
              | false =>
                rw [if_pos (show (!false) = true from rfl)] at h
                have hco := coalesce_preserv hinv2 hb2mem hb2free h
                exact ⟨hco.1, hco.2.1.trans hbrk2, hco.2.2.1.trans hlim2,
                  hco.2.2.2.1.trans hepi2, hco.2.2.2.2.1.trans hdata2⟩
              | true =>
                rw [if_neg (by simp)] at h
                simp only [Option.some.injEq] at h
                rw [← h]
                exact ⟨hinv2, hbrk2, hlim2, hepi2, hdata2⟩

/-- The shape of a successful free: when no merge fires, the freed block's
node is appended at the tail end of the free list and the block count is
unchanged; otherwise a merge dropped at least one block. -/
lemma mm_free_shape {s : State} (hinv : EInv s) {p : Nat} {s' : State}
    (h : mm_free s (some p) = some s') :
    (s'.freeList = s.freeList ++ [p - ALIGNMENT] ∧ s'.blocks.length = s.blocks.length) ∨
    s'.blocks.length < s.blocks.length := by
  rw [mm_free] at h
  cases hfd : s.blocks.find? (fun x => x.addr == p - ALIGNMENT) with
  | none => rw [hfd] at h; cases h
  | some b =>
    rw [hfd] at h
    dsimp only at h
    obtain ⟨hbmem, hbaddr⟩ := find?_addr hfd
    by_cases hmem : b.addr ∈ s.freeList
    · rw [if_pos hmem] at h; cases h
    · rw [if_neg hmem] at h
      have hmk := mark_free_append_preserv hinv hbmem hmem
      obtain ⟨hinv2, hbrk2, hlim2, hepi2, hdata2, hb2mem, hfl2⟩ := hmk
      set s2 := add_linked_node_to_block (update_block s b.addr
        (fun blk => set_boundaries blk (tag_size blk.header) false)) b.addr with hs2def
      set b2 := set_boundaries b (tag_size b.header) false with hb2def
      have hb2free : tag_allocated b2.header = false :=
        tag_allocated_set_boundaries b _ (tag_size_even _) false
      have hlen2 : s2.blocks.length = s.blocks.length := by
        show (s.blocks.map _).length = s.blocks.length
        exact List.length_map _ _
      have hfl2a : s2.freeList = s.freeList ++ [p - ALIGNMENT] := by
        rw [hfl2, hbaddr]
      cases hpa : is_prev_allocated s2 b2 with
      | none => rw [hpa] at h; cases h
      | some pa =>
        rw [hpa] at h
        dsimp only at h
        cases pa with
        | false =>
          rw [if_pos (show (!false) = true from rfl)] at h
          have hco := coalesce_preserv hinv2 hb2mem hb2free h
          rcases hco.2.2.2.2.2 with hlt | heq
          · exact Or.inr (by omega)
          · exact Or.inl ⟨by rw [heq, hfl2a], by rw [heq, hlen2]⟩
        | true =>
          rw [if_neg (by simp)] at h
          cases hna : is_next_allocated s2 b2 with
          | none => rw [hna] at h; cases h
          | some na =>
            rw [hna] at h
            dsimp only at h
            cases na with
            | false =>
              rw [if_pos (show (!false) = true from rfl)] at h
              have hco := coalesce_preserv hinv2 hb2mem hb2free h
              rcases hco.2.2.2.2.2 with hlt | heq
              · exact Or.inr (by omega)
              · exact Or.inl ⟨by rw [heq, hfl2a], by rw [heq, hlen2]⟩
            | true =>
              rw [if_neg (by simp)] at h
              simp only [Option.some.injEq] at h
              exact Or.inl ⟨by rw [← h, hfl2a], by rw [← h, hlen2]⟩

end Explicit

namespace Explicit

/-- The split threshold of `find_fit` in its exact-rational reading: for tag
sizes (multiples of the alignment unit), the comparison against the
`0.01`-padded bound is "the whole block is at most the request plus one tag
pair", and its negation leaves at least `2 * ALIGNMENT` of slack.  (Under
IEEE `double` semantics this holds only while `size + ALIGNMENT < 2^47`;
beyond, the negation can leave exactly `ALIGNMENT`, i.e. a zero-size
remainder.) -/
lemma rat_threshold {bsz size : Nat} (hb : bsz % ALIGNMENT = 0) (hs : size % ALIGNMENT = 0)
    (h : ¬ (100 * bsz < 100 * size + 100 * ALIGNMENT + 1)) :
    size + 2 * ALIGNMENT ≤ bsz := by
  unfold ALIGNMENT WORD at *
  omega

lemma rat_nosplit {bsz size : Nat}
    (h : 100 * bsz < 100 * size + 100 * ALIGNMENT + 1) :
    bsz ≤ size + ALIGNMENT := by
  unfold ALIGNMENT WORD at *
  omega

/-- Marking a fitting block allocated whole and unlinking its node preserves
the invariant. -/
lemma alloc_whole_preserv {s : State} (hinv : EInv s) {b : Block} (hb : b ∈ s.blocks)
    (hmem : b.addr ∈ s.freeList) :
    let s' := remove_linked_node_from_block (update_block s b.addr
      (fun blk => set_boundaries blk (tag_size b.header) true)) b.addr
    EInv s' ∧ s'.brk = s.brk ∧ s'.limit = s.limit ∧ s'.epi = s.epi ∧ s'.data = s.data ∧
    (∀ z ∈ s'.blocks, tag_allocated z.header = false → z ∈ s.blocks) := by
  intro s'
  obtain ⟨pre, post, hdec⟩ := List.append_of_mem hb
  obtain ⟨hf1, hf2, hf3, hf4⟩ := decomp_facts hinv hdec
  have hbok := hinv.blocks_ok b hb
  set b' := set_boundaries b (tag_size b.header) true with hb'def
  have hb'addr : b'.addr = b.addr := rfl
  have hb'size : tag_size b'.header = tag_size b.header :=
    tag_size_set_boundaries b _ (tag_size_even _) (tag_size_lt _) true
  have hb'alloc : tag_allocated b'.header = true :=
    tag_allocated_set_boundaries b _ (tag_size_even _) true
  have hb'foot : footer_addr b' = footer_addr b := by
    unfold footer_addr
    rw [hb'addr, hb'size]
  have hb'ok : eblock_ok b' := eblock_ok_set_boundaries hbok.1 hbok.2.1 (tag_size_lt _) true
  have hupd : (update_block s b.addr
      (fun blk => set_boundaries blk (tag_size b.header) true)).blocks
      = pre ++ b' :: post := update_block_decomp hdec hf3 hf4 _
  have hblocks : s'.blocks = pre ++ b' :: post := hupd
  have hfl : s'.freeList = s.freeList.erase b.addr := rfl
  refine ⟨⟨?_, hinv.brk_mod, ?_, ?_, ?_, hinv.epi_brk, hinv.prologue_epi, ?_, ?_, ?_,
    hinv.brk_le, hinv.limit_lt⟩, rfl, rfl, rfl, rfl, ?_⟩
  · intro z hz
    rw [hblocks] at hz
    rcases List.mem_append.mp hz with hz | hz
    · exact hinv.blocks_ok z (by rw [hdec]; simp [hz])
    · rcases List.mem_cons.mp hz with hz | hz
      · rw [hz]; exact hb'ok
      · exact hinv.blocks_ok z (by rw [hdec]; simp [hz])
  · intro z hz
    rw [hblocks] at hz
    rcases List.mem_append.mp hz with hz | hz
    · exact hinv.addr_lb z (by rw [hdec]; simp [hz])
    · rcases List.mem_cons.mp hz with hz | hz
      · rw [hz, hb'addr]; exact hinv.addr_lb b hb
      · exact hinv.addr_lb z (by rw [hdec]; simp [hz])
  · have hord := hinv.ordered
    rw [hdec, List.pairwise_append] at hord
    have hcons := List.pairwise_cons.mp hord.2.1
    rw [hblocks, List.pairwise_append, List.pairwise_cons]
    refine ⟨hord.1, ⟨?_, hcons.2⟩, ?_⟩
    · intro z hz
      rw [hb'foot]
      exact hcons.1 z hz
    · intro a ha z hz
      rcases List.mem_cons.mp hz with hz | hz
      · rw [hz, hb'addr]
        exact hord.2.2 a ha b (by simp)
      · exact hord.2.2 a ha z (by simp [hz])
  · intro z hz
    rw [hblocks] at hz
    show footer_addr z + WORD ≤ s.epi
    rcases List.mem_append.mp hz with hz | hz
    · exact hinv.below_epi z (by rw [hdec]; simp [hz])
    · rcases List.mem_cons.mp hz with hz | hz
      · rw [hz, hb'foot]; exact hinv.below_epi b hb
      · exact hinv.below_epi z (by rw [hdec]; simp [hz])
  · intro z hz
    rw [hblocks] at hz
    rw [hfl]
    rcases List.mem_append.mp hz with hz | hz
    · have hzne : z.addr ≠ b.addr := hf3 z hz
      rw [List.mem_erase_of_ne hzne]
      exact hinv.sync z (by rw [hdec]; simp [hz])
    · rcases List.mem_cons.mp hz with hz | hz
      · rw [hz, hb'addr]
        simp only [hb'alloc]
        constructor
        · intro h2; cases h2
        · intro h2
          exact absurd ((List.Nodup.mem_erase_iff hinv.nodup).mp h2).1 (by simp)
      · have hzne : z.addr ≠ b.addr := hf4 z hz
        rw [List.mem_erase_of_ne hzne]
        exact hinv.sync z (by rw [hdec]; simp [hz])
  · rw [hfl]; exact hinv.nodup.erase _
  · intro a ha
    rw [hfl] at ha
    have hamem : a ∈ s.freeList := List.mem_of_mem_erase ha
    have hane : a ≠ b.addr := ((List.Nodup.mem_erase_iff hinv.nodup).mp ha).1
    obtain ⟨z, hz, hza⟩ := hinv.backed a hamem
    rw [hdec] at hz
    rcases List.mem_append.mp hz with hz | hz
    · exact ⟨z, by rw [hblocks]; simp [hz], hza⟩
    · rcases List.mem_cons.mp hz with hz | hz
      · exfalso; rw [hz] at hza; exact hane hza.symm
      · exact ⟨z, by rw [hblocks]; simp [hz], hza⟩
  · intro z hz hzf
    rw [hblocks] at hz
    rcases List.mem_append.mp hz with hz | hz
    · rw [hdec]; simp [hz]
    · rcases List.mem_cons.mp hz with hz | hz
      · exfalso
        rw [hz, hb'alloc] at hzf
        cases hzf
      · rw [hdec]; simp [hz]

end Explicit

namespace Explicit

lemma flatMap_id_of {l : List Block} (f : Block → List Block) (h : ∀ x ∈ l, f x = [x]) :
    l.flatMap f = l := by
  induction l with
  | nil => simp
  | cons x xs ih =>
    rw [List.flatMap_cons, h x (by simp), ih (fun z hz => h z (by simp [hz]))]
    rfl

/-- Splitting a fitting free block preserves the invariant. -/
lemma split_preserv {s : State} (hinv : EInv s) {b : Block} (hb : b ∈ s.blocks)
    (hmem : b.addr ∈ s.freeList) {size : Nat} (hsz : size % ALIGNMENT = 0)
    (hfit : size + 2 * ALIGNMENT ≤ tag_size b.header) :
    let s1 := update_block s b.addr (fun blk => set_boundaries blk (tag_size b.header) true)
    let s' := split s1 b.addr (tag_size b.header) size
    EInv s' ∧ s'.brk = s.brk ∧ s'.limit = s.limit ∧ s'.epi = s.epi ∧ s'.data = s.data ∧
    (∀ z ∈ s'.blocks, tag_allocated z.header = false →
      z ∈ s.blocks ∨ ALIGNMENT ≤ tag_size z.header) := by
  intro s1 s'
  obtain ⟨pre, post, hdec⟩ := List.append_of_mem hb
  obtain ⟨hf1, hf2, hf3, hf4⟩ := decomp_facts hinv hdec
  have hbok := hinv.blocks_ok b hb
  have hbszlt := tag_size_lt b.header
  have hszlt : size < 2 ^ 64 := by
    unfold ALIGNMENT WORD at hfit
    omega
  set bsz := tag_size b.header with hbszdef
  set na := b.addr + size + ALIGNMENT with hnadef
  set b1 := set_boundaries b size true with hb1def
  set nb := set_boundaries ⟨na, 0, 0⟩ (bsz - size - ALIGNMENT) false with hnbdef
  have hb1addr : b1.addr = b.addr := rfl
  have hb1size : tag_size b1.header = size :=
    tag_size_set_boundaries b size (Implicit.align_even hsz) hszlt true
  have hb1alloc : tag_allocated b1.header = true :=
    tag_allocated_set_boundaries b size (Implicit.align_even hsz) true
  have hb1foot : footer_addr b1 = na := by
    unfold footer_addr
    rw [hb1addr, hb1size, hnadef]
    omega
  have hb1ok : eblock_ok b1 := eblock_ok_set_boundaries hbok.1 hsz hszlt true
  have hnbszmod : (bsz - size - ALIGNMENT) % ALIGNMENT = 0 := by
    have h1 := hbok.2.1
    rw [← hbszdef] at h1
    unfold ALIGNMENT WORD at *
    omega
  have hnbaddr : nb.addr = na := rfl
  have hnbsize : tag_size nb.header = bsz - size - ALIGNMENT :=
    tag_size_set_boundaries _ _ (Implicit.align_even hnbszmod) (by omega) false
  have hnbfree : tag_allocated nb.header = false :=
    tag_allocated_set_boundaries _ _ (Implicit.align_even hnbszmod) false
  have hnamod : na % ALIGNMENT = 0 := by
    have h1 := hbok.1
    rw [hnadef]
    unfold ALIGNMENT WORD at *
    omega
  have hnbok : eblock_ok nb := eblock_ok_set_boundaries hnamod hnbszmod (by omega) false
  have hnbfoot : footer_addr nb = footer_addr b := by
    unfold footer_addr
    rw [hnbaddr, hnbsize, hnadef, ← hbszdef]
    unfold ALIGNMENT WORD at *
    omega
  have hfootb : footer_addr b = b.addr + ALIGNMENT + bsz := rfl
  have hnalt : na < footer_addr b := by
    rw [hfootb, hnadef]
    unfold ALIGNMENT WORD at *
    omega
  have hnagt : b.addr < na := by
    rw [hnadef]
    unfold ALIGNMENT WORD
    omega
  -- na is no block's address
  have hnafresh : ∀ z ∈ s.blocks, z.addr ≠ na := by
    intro z hz
    rw [hdec] at hz
    rcases List.mem_append.mp hz with hz | hz
    · have h1 := hf1 z hz
      have h2 := footer_addr_gt z
      unfold ALIGNMENT WORD at *
      omega
    · rcases List.mem_cons.mp hz with hz | hz
      · rw [hz]; omega
      · have h1 := hf2 z hz
        omega
  have hnanotfl : na ∉ s.freeList := by
    intro hna
    obtain ⟨z, hz, hza⟩ := hinv.backed na hna
    exact hnafresh z hz hza
  have hs1blocks : s1.blocks = pre ++ (set_boundaries b bsz true) :: post :=
    update_block_decomp hdec hf3 hf4 _
  have hblocks : s'.blocks = pre ++ b1 :: nb :: post := by
    show (s1.blocks.flatMap
      fun x => if x.addr = b.addr then [set_boundaries x size true, nb] else [x])
      = pre ++ b1 :: nb :: post
    rw [hs1blocks, List.flatMap_append, List.flatMap_cons]
    rw [flatMap_id_of _ (fun z hz => by rw [if_neg (hf3 z hz)]),
        flatMap_id_of _ (fun z hz => by rw [if_neg (hf4 z hz)])]
    have hcond : (set_boundaries b bsz true).addr = b.addr := rfl
    rw [if_pos hcond]
    rfl
  have hfl : s'.freeList = (s.freeList ++ [na]).erase b.addr := rfl
  have hflnodup : (s.freeList ++ [na]).Nodup := by
    refine List.Nodup.append hinv.nodup (by simp) ?_
    intro a2 ha2 hb2
    simp only [List.mem_singleton] at hb2
    rw [hb2] at ha2
    exact hnanotfl ha2
  have hord := hinv.ordered
  rw [hdec, List.pairwise_append] at hord
  have hcons := List.pairwise_cons.mp hord.2.1
  refine ⟨⟨?_, hinv.brk_mod, ?_, ?_, ?_, hinv.epi_brk, hinv.prologue_epi, ?_, ?_, ?_,
    hinv.brk_le, hinv.limit_lt⟩, rfl, rfl, rfl, rfl, ?_⟩
  · intro z hz
    rw [hblocks] at hz
    rcases List.mem_append.mp hz with hz | hz
    · exact hinv.blocks_ok z (by rw [hdec]; simp [hz])
    · rcases List.mem_cons.mp hz with hz | hz
      · rw [hz]; exact hb1ok
      · rcases List.mem_cons.mp hz with hz | hz
        · rw [hz]; exact hnbok
        · exact hinv.blocks_ok z (by rw [hdec]; simp [hz])
  · intro z hz
    rw [hblocks] at hz
    rcases List.mem_append.mp hz with hz | hz
    · exact hinv.addr_lb z (by rw [hdec]; simp [hz])
    · rcases List.mem_cons.mp hz with hz | hz
      · rw [hz, hb1addr]; exact hinv.addr_lb b hb
      · rcases List.mem_cons.mp hz with hz | hz
        · rw [hz, hnbaddr]
          have h1 := hinv.addr_lb b hb
          omega
        · exact hinv.addr_lb z (by rw [hdec]; simp [hz])
  · rw [hblocks, List.pairwise_append, List.pairwise_cons]
    refine ⟨hord.1, ⟨?_, ?_⟩, ?_⟩
    · intro z hz
      rcases List.mem_cons.mp hz with hz | hz
      · rw [hz, hnbaddr, hb1foot]
      · have h1 := hcons.1 z hz
        rw [hb1foot]
        omega
    · rw [List.pairwise_cons]
      refine ⟨?_, hcons.2⟩
      intro z hz
      rw [hnbfoot]
      exact hcons.1 z hz
    · intro a2 ha2 z hz
      have h1 := hord.2.2 a2 ha2 b (by simp)
      rcases List.mem_cons.mp hz with hz | hz
      · rw [hz, hb1addr]
        exact h1
      · rcases List.mem_cons.mp hz with hz | hz
        · rw [hz, hnbaddr]
          omega
        · exact hord.2.2 a2 ha2 z (by simp [hz])
  · intro z hz
    rw [hblocks] at hz
    show footer_addr z + WORD ≤ s.epi
    have hbepi := hinv.below_epi b hb
    rcases List.mem_append.mp hz with hz | hz
    · exact hinv.below_epi z (by rw [hdec]; simp [hz])
    · rcases List.mem_cons.mp hz with hz | hz
      · rw [hz, hb1foot]
        unfold WORD at *
        omega
      · rcases List.mem_cons.mp hz with hz | hz
        · rw [hz, hnbfoot]
          exact hbepi
        · exact hinv.below_epi z (by rw [hdec]; simp [hz])
  · intro z hz
    rw [hblocks] at hz
    rw [hfl]
    rcases List.mem_append.mp hz with hz | hz
    · have hzne : z.addr ≠ b.addr := hf3 z hz
      have hzna : z.addr ≠ na := hnafresh z (by rw [hdec]; simp [hz])
      rw [List.mem_erase_of_ne hzne, List.mem_append, List.mem_singleton]
      have hzs := hinv.sync z (by rw [hdec]; simp [hz])
      constructor
      · intro hfr
        exact Or.inl (hzs.mp hfr)
      · intro hor
        rcases hor with hor | hor
        · exact hzs.mpr hor
        · exact absurd hor hzna
    · rcases List.mem_cons.mp hz with hz | hz
      · rw [hz, hb1addr]
        simp only [hb1alloc]
        constructor
        · intro h2; cases h2
        · intro h2
          exact absurd ((List.Nodup.mem_erase_iff hflnodup).mp h2).1 (by simp)
      · rcases List.mem_cons.mp hz with hz | hz
        · rw [hz, hnbaddr]
          simp only [hnbfree]
          have hmemna : na ∈ s.freeList ++ [na] := by simp
          have hnena : na ≠ b.addr := by omega
          rw [List.mem_erase_of_ne hnena]
          exact ⟨fun _ => hmemna, fun _ => trivial⟩
        · have hzne : z.addr ≠ b.addr := hf4 z hz
          have hzna : z.addr ≠ na := hnafresh z (by rw [hdec]; simp [hz])
          rw [List.mem_erase_of_ne hzne, List.mem_append, List.mem_singleton]
          have hzs := hinv.sync z (by rw [hdec]; simp [hz])
          constructor
          · intro hfr
            exact Or.inl (hzs.mp hfr)
          · intro hor
            rcases hor with hor | hor
            · exact hzs.mpr hor
            · exact absurd hor hzna
  · rw [hfl]
    exact hflnodup.erase _
  · intro a2 ha2
    rw [hfl] at ha2
    have hamem : a2 ∈ s.freeList ++ [na] := List.mem_of_mem_erase ha2
    have hane : a2 ≠ b.addr := ((List.Nodup.mem_erase_iff hflnodup).mp ha2).1
    rw [List.mem_append, List.mem_singleton] at hamem
    rcases hamem with hamem | hamem
    · obtain ⟨z, hz, hza⟩ := hinv.backed a2 hamem
      rw [hdec] at hz
      rcases List.mem_append.mp hz with hz | hz
      · exact ⟨z, by rw [hblocks]; simp [hz], hza⟩
      · rcases List.mem_cons.mp hz with hz | hz
        · exfalso; rw [hz] at hza; exact hane hza.symm
        · exact ⟨z, by rw [hblocks]; simp [hz], hza⟩
    · refine ⟨nb, by rw [hblocks]; simp, ?_⟩
      rw [hnbaddr, hamem]
  · intro z hz hzf
    rw [hblocks] at hz
    rcases List.mem_append.mp hz with hz | hz
    · exact Or.inl (by rw [hdec]; simp [hz])
    · rcases List.mem_cons.mp hz with hz | hz
      · exfalso
        rw [hz, hb1alloc] at hzf
        cases hzf
      · rcases List.mem_cons.mp hz with hz | hz
        · refine Or.inr ?_
          rw [hz, hnbsize]
          unfold ALIGNMENT WORD at *
          omega
        · exact Or.inl (by rw [hdec]; simp [hz])

end Explicit

namespace Explicit

lemma find_fit_loop_preserv {s : State} (hinv : EInv s) {size : Nat}
    (hsz : size % ALIGNMENT = 0) :
    ∀ cands, (∀ x ∈ cands, x ∈ s.freeList) →
    ∀ {a : Nat} {s' : State}, find_fit_loop s size cands = some (some (a, s')) →
      EInv s' ∧ s'.brk = s.brk ∧ s'.limit = s.limit ∧ s'.epi = s.epi ∧ s'.data = s.data ∧
      (∀ z ∈ s'.blocks, tag_allocated z.header = false →
        z ∈ s.blocks ∨ ALIGNMENT ≤ tag_size z.header) ∧
      ∃ b, b ∈ s.blocks ∧ b.addr = a := by
  intro cands
  induction cands with
  | nil =>
    intro _ a s' h
    rw [find_fit_loop] at h
    simp at h
  | cons a0 rest ih =>
    intro hsub a s' h
    rw [find_fit_loop] at h
    cases hfd : s.blocks.find? (fun x => x.addr == a0) with
    | none => rw [hfd] at h; cases h
    | some b =>
      rw [hfd] at h
      dsimp only at h
      obtain ⟨hbmem, hbaddr⟩ := find?_addr hfd
      have hbok := hinv.blocks_ok b hbmem
      by_cases hge : size ≤ tag_size b.header
      · rw [if_pos hge] at h
        have hmem0 : b.addr ∈ s.freeList := by
          rw [hbaddr]
          exact hsub a0 (by simp)
        rw [← hbaddr] at h
        by_cases hrt : (100 * tag_size b.header < 100 * size + 100 * ALIGNMENT + 1)
        · rw [if_pos hrt] at h
          simp only [Option.some.injEq, Prod.mk.injEq] at h
          have hall := alloc_whole_preserv hinv hbmem hmem0
          rw [← h.2]
          exact ⟨hall.1, hall.2.1, hall.2.2.1, hall.2.2.2.1, hall.2.2.2.2.1,
            fun z hz hzf => Or.inl (hall.2.2.2.2.2 z hz hzf), b, hbmem, h.1⟩
        · rw [if_neg hrt] at h
          simp only [Option.some.injEq, Prod.mk.injEq] at h
          have hfit := rat_threshold hbok.2.1 hsz hrt
          have hsp := split_preserv hinv hbmem hmem0 hsz hfit
          rw [← h.2]
          exact ⟨hsp.1, hsp.2.1, hsp.2.2.1, hsp.2.2.2.1, hsp.2.2.2.2.1,
            hsp.2.2.2.2.2, b, hbmem, h.1⟩
      · rw [if_neg hge] at h
        exact ih (fun x hx => hsub x (by simp [hx])) h

lemma find_fit_preserv {s : State} (hinv : EInv s) {size : Nat}
    (hsz : size % ALIGNMENT = 0) {a : Nat} {s' : State}
    (h : find_fit s size = some (some (a, s'))) :
    EInv s' ∧ s'.brk = s.brk ∧ s'.limit = s.limit ∧ s'.epi = s.epi ∧ s'.data = s.data ∧
    (∀ z ∈ s'.blocks, tag_allocated z.header = false →
      z ∈ s.blocks ∨ ALIGNMENT ≤ tag_size z.header) ∧
    ∃ b, b ∈ s.blocks ∧ b.addr = a :=
  find_fit_loop_preserv hinv hsz s.freeList.reverse
    (fun x hx => List.mem_reverse.mp hx) h

/-- The loop of `find_fit` realises the first-fit policy over its candidate
list: the returned address is the first candidate that fits the request, and
every candidate tried before it does not. -/
lemma find_fit_loop_select {s : State} {size : Nat} :
    ∀ (cands : List Nat) {a : Nat} {s' : State},
      find_fit_loop s size cands = some (some (a, s')) →
      ∃ pre post, cands = pre ++ a :: post ∧ fits s size a = true ∧
        ∀ x ∈ pre, fits s size x = false := by
  intro cands
  induction cands with
  | nil =>
    intro a s' h
    rw [find_fit_loop] at h
    simp at h
  | cons a0 rest ih =>
    intro a s' h
    rw [find_fit_loop] at h
    cases hfd : s.blocks.find? (fun x => x.addr == a0) with
    | none => rw [hfd] at h; cases h
    | some b =>
      rw [hfd] at h
      dsimp only at h
      by_cases hge : size ≤ tag_size b.header
      · rw [if_pos hge] at h
        have hfit : fits s size a0 = true := by
          unfold fits
          rw [hfd]
          exact decide_eq_true hge
        have ha : a0 = a := by
          by_cases hrt : (100 * tag_size b.header < 100 * size + 100 * ALIGNMENT + 1)
          · rw [if_pos hrt] at h
            simp only [Option.some.injEq, Prod.mk.injEq] at h
            exact h.1
          · rw [if_neg hrt] at h
            simp only [Option.some.injEq, Prod.mk.injEq] at h
            exact h.1
        exact ⟨[], rest, by rw [ha]; simp, ha ▸ hfit, by simp⟩
      · rw [if_neg hge] at h
        obtain ⟨pre, post, hdec, hfits, hpre⟩ := ih h
        refine ⟨a0 :: pre, post, by rw [hdec]; simp, hfits, ?_⟩
        intro x hx
        rcases List.mem_cons.mp hx with hx | hx
        · rw [hx]
          unfold fits
          rw [hfd]
          exact decide_eq_false hge
        · exact hpre x hx

/-- `find_fit` is a first-fit search over the reversed free list. -/
lemma find_fit_select {s : State} {size a : Nat} {s' : State}
    (h : find_fit s size = some (some (a, s'))) :
    ∃ pre post, s.freeList.reverse = pre ++ a :: post ∧ fits s size a = true ∧
      ∀ x ∈ pre, fits s size x = false :=
  find_fit_loop_select s.freeList.reverse h

lemma brk_ge {s : State} (hinv : EInv s) : prologue_addr + 2 * WORD ≤ s.brk := by
  have h1 := hinv.epi_brk
  have h2 := hinv.prologue_epi
  omega

/-- Growing the region by a fresh allocated block (the successful `mem_sbrk`
path of `mm_malloc`) preserves the invariant. -/
lemma append_block_preserv {s : State} (hinv : EInv s) {sz : Nat}
    (hsz : sz % ALIGNMENT = 0) (hlt : s.brk + sz + WORD + WORD ≤ s.limit) :
    EInv { s with
      blocks := s.blocks ++ [set_boundaries ⟨s.brk - ALIGNMENT, 0, 0⟩ sz true],
      epi := s.brk + sz + WORD,
      brk := s.brk + sz + WORD + WORD } := by
  have hbrkge := brk_ge hinv
  have hbrkmod := hinv.brk_mod
  have hszlt : sz < 2 ^ 64 := by
    have h1 := hinv.limit_lt
    omega
  set nb := set_boundaries ⟨s.brk - ALIGNMENT, 0, 0⟩ sz true with hnbdef
  have hnbaddr : nb.addr = s.brk - ALIGNMENT := rfl
  have hnbsize : tag_size nb.header = sz :=
    tag_size_set_boundaries _ _ (Implicit.align_even hsz) hszlt true
  have hnballoc : tag_allocated nb.header = true :=
    tag_allocated_set_boundaries _ _ (Implicit.align_even hsz) true
  have hnbmod : nb.addr % ALIGNMENT = 0 := by
    rw [hnbaddr]
    unfold prologue_addr ALIGNMENT WORD at *
    omega
  have hnbok : eblock_ok nb := eblock_ok_set_boundaries hnbmod hsz hszlt true
  have hnbfoot : footer_addr nb = s.brk + sz := by
    unfold footer_addr
    rw [hnbaddr, hnbsize]
    unfold prologue_addr ALIGNMENT WORD at *
    omega
  have holdhigh : ∀ z ∈ s.blocks, footer_addr z ≤ s.brk - 2 * WORD := by
    intro z hz
    have h1 := hinv.below_epi z hz
    have h2 := hinv.epi_brk
    omega
  have hnbfresh : ∀ z ∈ s.blocks, z.addr ≠ nb.addr := by
    intro z hz
    have h1 := holdhigh z hz
    have h2 := footer_addr_gt z
    rw [hnbaddr]
    unfold prologue_addr ALIGNMENT WORD at *
    omega
  refine ⟨?_, ?_, ?_, ?_, ?_, ?_, ?_, ?_, ?_, ?_, ?_, ?_⟩
  · intro z hz
    rcases List.mem_append.mp hz with hz | hz
    · exact hinv.blocks_ok z hz
    · simp only [List.mem_singleton] at hz
      rw [hz]
      exact hnbok
  · show (s.brk + sz + WORD + WORD) % ALIGNMENT = 0
    unfold ALIGNMENT WORD at *
    omega
  · intro z hz
    rcases List.mem_append.mp hz with hz | hz
    · exact hinv.addr_lb z hz
    · simp only [List.mem_singleton] at hz
      rw [hz, hnbaddr]
      unfold prologue_addr ALIGNMENT WORD at *
      omega
  · rw [List.pairwise_append]
    refine ⟨hinv.ordered, by simp, ?_⟩
    intro z hz y hy
    simp only [List.mem_singleton] at hy
    rw [hy, hnbaddr]
    have h1 := holdhigh z hz
    unfold ALIGNMENT WORD at *
    omega
  · intro z hz
    show footer_addr z + WORD ≤ s.brk + sz + WORD
    rcases List.mem_append.mp hz with hz | hz
    · have h1 := holdhigh z hz
      unfold WORD at *
      omega
    · simp only [List.mem_singleton] at hz
      rw [hz, hnbfoot]
  · show s.brk + sz + WORD + WORD ≤ s.brk + sz + WORD + WORD
    omega
  · show prologue_addr + WORD ≤ s.brk + sz + WORD
    unfold prologue_addr WORD at *
    omega
  · intro z hz
    show tag_allocated z.header = false ↔ z.addr ∈ s.freeList
    rcases List.mem_append.mp hz with hz | hz
    · exact hinv.sync z hz
    · simp only [List.mem_singleton] at hz
      rw [hz]
      simp only [hnballoc]
      constructor
      · intro h2; cases h2
      · intro h2
        exfalso
        obtain ⟨z2, hz2, hz2a⟩ := hinv.backed nb.addr h2
        exact hnbfresh z2 hz2 hz2a
  · exact hinv.nodup
  · intro a2 ha2
    obtain ⟨z, hz, hza⟩ := hinv.backed a2 ha2
    exact ⟨z, List.mem_append.mpr (Or.inl hz), hza⟩
  · show s.brk + sz + WORD + WORD ≤ s.limit
    exact hlt
  · exact hinv.limit_lt

end Explicit

namespace Explicit

/-- The invariant does not involve the payload bytes. -/
lemma EInv_set_data {s : State} (hinv : EInv s) (d : Nat → Nat) :
    EInv { s with data := d } :=
  ⟨hinv.blocks_ok, hinv.brk_mod, hinv.addr_lb, hinv.ordered, hinv.below_epi,
   hinv.epi_brk, hinv.prologue_epi, hinv.sync, hinv.nodup, hinv.backed,
   hinv.brk_le, hinv.limit_lt⟩

/-- `mm_malloc` preserves the invariant and returns an aligned payload. -/
lemma mm_malloc_preserv {s : State} (hinv : EInv s) {n : Nat} {r : Option Nat} {s' : State}
    (h : mm_malloc s n = some (r, s')) :
    EInv s' ∧ s'.limit = s.limit ∧ s'.data = s.data ∧
    (∀ p, r = some p → p % ALIGNMENT = 0) := by
  have hru := round_up_mod n
  rw [mm_malloc] at h
  cases hff : find_fit s (round_up n ALIGNMENT) with
  | none => rw [hff] at h; cases h
  | some o =>
    rw [hff] at h
    cases o with
    | some pr =>
      cases pr with
      | mk a st =>
        dsimp only at h
        simp only [Option.some.injEq, Prod.mk.injEq] at h
        obtain ⟨hinv', hbrk', hlim', hepi', hdata', _, b, hbm, hba⟩ :=
          find_fit_preserv hinv hru hff
        refine ⟨by rw [← h.2]; exact hinv', by rw [← h.2]; exact hlim',
          by rw [← h.2]; exact hdata', ?_⟩
        intro p hp
        rw [← h.1] at hp
        simp only [Option.some.injEq] at hp
        have hmod := (hinv.blocks_ok b hbm).1
        rw [hba] at hmod
        rw [← hp]
        unfold ALIGNMENT WORD at *
        omega
    | none =>
      dsimp only at h
      by_cases h1 : s.brk + round_up n ALIGNMENT ≤ s.limit
      · rw [if_pos h1] at h
        by_cases h2 : s.brk + round_up n ALIGNMENT + WORD ≤ s.limit
        · rw [if_pos h2] at h
          by_cases h3 : s.brk + round_up n ALIGNMENT + WORD + WORD ≤ s.limit
          · rw [if_pos h3] at h
            simp only [Option.some.injEq, Prod.mk.injEq] at h
            have happ := append_block_preserv hinv hru h3
            refine ⟨by rw [← h.2]; exact happ, by rw [← h.2], by rw [← h.2], ?_⟩
            intro p hp
            rw [← h.1] at hp
            simp only [Option.some.injEq] at hp
            rw [← hp]
            have hbrkge := brk_ge hinv
            have hbrkmod := hinv.brk_mod
            unfold prologue_addr ALIGNMENT WORD at *
            omega
          · rw [if_neg h3] at h
            cases h
        · rw [if_neg h2] at h
          simp only [Option.some.injEq, Prod.mk.injEq] at h
          refine ⟨?_, by rw [← h.2], by rw [← h.2], ?_⟩
          · rw [← h.2]
            refine ⟨hinv.blocks_ok, ?_, hinv.addr_lb, hinv.ordered, hinv.below_epi, ?_,
              hinv.prologue_epi, hinv.sync, hinv.nodup, hinv.backed, ?_, hinv.limit_lt⟩
            · show (s.brk + round_up n ALIGNMENT) % ALIGNMENT = 0
              have hm := hinv.brk_mod
              unfold ALIGNMENT WORD at *
              omega
            · show s.epi + WORD ≤ s.brk + round_up n ALIGNMENT
              have hm := hinv.epi_brk
              omega
            · exact h1
          · intro p hp
            rw [← h.1] at hp
            cases hp
      · rw [if_neg h1] at h
        by_cases h2 : s.brk + WORD ≤ s.limit
        · rw [if_pos h2] at h
          cases h
        · rw [if_neg h2] at h
          simp only [Option.some.injEq, Prod.mk.injEq] at h
          refine ⟨by rw [← h.2]; exact hinv, by rw [← h.2], by rw [← h.2], ?_⟩
          intro p hp
          rw [← h.1] at hp
          cases hp

/-- `mm_realloc` preserves the invariant; any returned pointer is aligned. -/
lemma mm_realloc_preserv {s : State} (hinv : EInv s) {op : Option Nat} {n : Nat}
    {r : Option Nat} {s' : State} (h : mm_realloc s op n = some (r, s')) :
    EInv s' ∧ s'.limit = s.limit ∧ (∀ q, r = some q → q % ALIGNMENT = 0) := by
  cases op with
  | none =>
    rw [mm_realloc] at h
    have hm := mm_malloc_preserv hinv h
    exact ⟨hm.1, hm.2.1, hm.2.2.2⟩
  | some p =>
    rw [mm_realloc] at h
    by_cases hz : n = 0
    · rw [if_pos hz] at h
      cases h2 : mm_free s (some p) with
      | none => rw [h2] at h; cases h
      | some s2 =>
        rw [h2] at h
        simp only [Option.map_some', Option.some.injEq, Prod.mk.injEq] at h
        have hf := mm_free_preserv hinv h2
        refine ⟨by rw [← h.2]; exact hf.1, by rw [← h.2]; exact hf.2.2.1, ?_⟩
        intro q hq
        rw [← h.1] at hq
        cases hq
    · rw [if_neg hz] at h
      cases h2 : mm_malloc s n with
      | none => rw [h2] at h; cases h
      | some pr =>
        cases pr with
        | mk np s1 =>
          rw [h2] at h
          dsimp only at h
          have hm := mm_malloc_preserv hinv h2
          cases h3 : s1.blocks.find? (fun b => b.addr == p - ALIGNMENT) with
          | none => rw [h3] at h; cases h
          | some ob =>
            rw [h3] at h
            dsimp only at h
            cases h4 : memcpy_chk s1 np p
                (if tag_size ob.header < n then tag_size ob.header else n) with
            | none => rw [h4] at h; cases h
            | some s2 =>
              rw [h4] at h
              dsimp only at h
              have hcpy : EInv s2 ∧ s2.limit = s1.limit := by
                rw [memcpy_chk.eq_def] at h4
                cases np with
                | none =>
                  dsimp only at h4
                  by_cases h5 : (if tag_size ob.header < n then tag_size ob.header else n) = 0
                  · rw [if_pos h5] at h4
                    simp only [Option.some.injEq] at h4
                    rw [← h4]
                    exact ⟨hm.1, rfl⟩
                  · rw [if_neg h5] at h4
                    cases h4
                | some d =>
                  dsimp only at h4
                  simp only [Option.some.injEq] at h4
                  rw [← h4]
                  exact ⟨EInv_set_data hm.1 _, rfl⟩
              have hinv2 : EInv s2 := hcpy.1
              have hs2lim : s2.limit = s1.limit := hcpy.2
              cases h6 : mm_free s2 (some p) with
              | none => rw [h6] at h; cases h
              | some s3 =>
                rw [h6] at h
                simp only [Option.map_some', Option.some.injEq, Prod.mk.injEq] at h
                have hf := mm_free_preserv hinv2 h6
                refine ⟨by rw [← h.2]; exact hf.1, ?_, ?_⟩
                · rw [← h.2, hf.2.2.1, hs2lim, hm.2.1]
                · intro q hq
                  rw [← h.1] at hq
                  exact hm.2.2.2 q hq

/-- `mm_calloc` preserves the invariant; any returned pointer is aligned. -/
lemma mm_calloc_preserv {s : State} (hinv : EInv s) {a b : Nat}
    {r : Option Nat} {s' : State} (h : mm_calloc s a b = some (r, s')) :
    EInv s' ∧ s'.limit = s.limit ∧ (∀ q, r = some q → q % ALIGNMENT = 0) := by
  rw [mm_calloc] at h
  cases h2 : mm_malloc s (a * b % 2 ^ 64) with
  | none => rw [h2] at h; cases h
  | some pr =>
    cases pr with
    | mk q s1 =>
      rw [h2] at h
      have hm := mm_malloc_preserv hinv h2
      cases q with
      | none =>
        dsimp only at h
        simp only [Option.some.injEq, Prod.mk.injEq] at h
        refine ⟨by rw [← h.2]; exact hm.1, by rw [← h.2]; exact hm.2.1, ?_⟩
        intro q hq
        rw [← h.1] at hq
        cases hq
      | some q0 =>
        dsimp only at h
        simp only [Option.some.injEq, Prod.mk.injEq] at h
        refine ⟨by rw [← h.2]; exact EInv_set_data hm.1 _,
          by rw [← h.2]; show s1.limit = s.limit; exact hm.2.1, ?_⟩
        intro q hq
        rw [← h.1] at hq
        exact hm.2.2.2 q hq

/-- The freshly initialized heap satisfies the invariant. -/
lemma mm_init_EInv {limit : Nat} {s : State} (hlim : limit < 2 ^ 64)
    (h : mm_init limit = some s) : EInv s := by
  rw [mm_init] at h
  split at h
  · simp only [Option.some.injEq] at h
    rw [← h]
    rename_i hc
    refine ⟨by simp, ?_, by simp, by simp, by simp, ?_, ?_, by simp, by simp, by simp,
      ?_, hlim⟩
    · show (2 * ALIGNMENT + 2 * WORD) % ALIGNMENT = 0
      decide
    · show 2 * ALIGNMENT + WORD + WORD ≤ 2 * ALIGNMENT + 2 * WORD
      decide
    · show prologue_addr + WORD ≤ 2 * ALIGNMENT + WORD
      decide
    · show 2 * ALIGNMENT + 2 * WORD ≤ limit
      exact hc
  · cases h

/-- Every public call of mm-explicit.c preserves the invariant, and every
pointer it hands out is aligned. -/
lemma step_preserv {s : State} {op : Op} {r : Option Nat} {s' : State}
    (hinv : EInv s) (h : step s op = some (r, s')) :
    EInv s' ∧ (∀ q, r = some q → q % ALIGNMENT = 0) := by
  cases op with
  | malloc n =>
    rw [step] at h
    have hm := mm_malloc_preserv hinv h
    exact ⟨hm.1, hm.2.2.2⟩
  | free p =>
    rw [step] at h
    cases h2 : mm_free s p with
    | none => rw [h2] at h; cases h
    | some s2 =>
      rw [h2] at h
      simp only [Option.map_some', Option.some.injEq, Prod.mk.injEq] at h
      have hf := mm_free_preserv hinv h2
      exact ⟨by rw [← h.2]; exact hf.1, fun q hq => by rw [← h.1] at hq; cases hq⟩
  | realloc p n =>
    rw [step] at h
    have hm := mm_realloc_preserv hinv h
    exact ⟨hm.1, hm.2.2⟩
  | calloc a b =>
    rw [step] at h
    have hm := mm_calloc_preserv hinv h
    exact ⟨hm.1, hm.2.2⟩

lemma run_preserv : ∀ (ops : List Op) (s : State) (sf : State) (rets : List (Option Nat)),
    EInv s → run s ops = some (sf, rets) →
    EInv sf ∧ ∀ r ∈ rets, ∀ p, r = some p → p % ALIGNMENT = 0 := by
  intro ops
  induction ops with
  | nil =>
    intro s sf rets hinv h
    rw [run] at h
    simp only [Option.some.injEq, Prod.mk.injEq] at h
    exact ⟨h.1 ▸ hinv, by rw [← h.2]; simp⟩
  | cons op ops ih =>
    intro s sf rets hinv h
    rw [run] at h
    cases h2 : step s op with
    | none => rw [h2] at h; cases h
    | some rs =>
      rw [h2] at h
      cases rs with
      | mk r s' =>
        have hstep := step_preserv hinv h2
        dsimp only at h
        cases h3 : run s' ops with
        | none => rw [h3] at h; cases h
        | some frs =>
          rw [h3] at h
          cases frs with
          | mk sff rss =>
            simp only [Option.some.injEq, Prod.mk.injEq] at h
            obtain ⟨hf, hrs⟩ := ih s' sff rss hstep.1 h3
            refine ⟨h.1 ▸ hf, ?_⟩
            intro x hx p hp
            rw [← h.2] at hx
            rcases List.mem_cons.mp hx with hx | hx
            · exact hstep.2 p (by rw [← hp, hx])
            · exact hrs x hx p hp

end Explicit

/-! ## The claims -/

/-- C1: counter-evidence for the claim that a failed region growth makes
`reallocate` return the null marker with no mutation of allocator state.  On
an 80-byte region filled by one 16-byte block, reallocating to 32 bytes
makes `mm_malloc` fail cleanly — it returns the null marker without mutating
the heap, as the claim demands of `allocate` — but `mm_realloc` of
mm-explicit.c never checks that result: it calls
`memcpy(NULL, old_ptr, 16)`, dereferencing the null pointer, so the call's
execution is undefined (`none`) instead of returning the failure marker with
the old block left allocated and intact. -/
theorem claim_C1 :
    Explicit.realloc_oom_demo =
      some (some 48, some (none, [(32, 16, true)], []), none) := rfl

/-- C2 (amended): `mm_free` of mm-implicit.c marks the owning block
unallocated and changes nothing else; merging happens only inside the
`mm_malloc` scan, whose merge step folds the current free block into the
free block immediately preceding it — never into a following one, and never
when either of the two is allocated; since the merged block then stands as
the preceding free block of the next iteration, merges cascade, and one scan
collapses three consecutive 32-byte free blocks into a single 96-byte free
block. -/
theorem claim_C2 :
    (∀ (s : Implicit.State) (p : Nat) (s' : Implicit.State),
       Implicit.mm_free s (some p) = some s' →
       s'.brk = s.brk ∧ s'.limit = s.limit ∧ s'.data = s.data ∧
       ∃ pre b post, s.blocks = pre ++ b :: post ∧
         s'.blocks = pre ++ Implicit.set_header (Implicit.bsize b) false :: post) ∧
    (∀ (curr : Implicit.Block),
       Implicit.merge_step [] curr = (Implicit.bsize curr, curr, [])) ∧
    (∀ (prev : Implicit.Block) (dtail : List Implicit.Block) (curr : Implicit.Block),
       Implicit.balloc curr = true ∨ Implicit.balloc prev = true →
       Implicit.merge_step (prev :: dtail) curr = (Implicit.bsize curr, curr, prev :: dtail)) ∧
    (∀ (prev : Implicit.Block) (dtail : List Implicit.Block) (curr : Implicit.Block),
       Implicit.balloc curr = false → Implicit.balloc prev = false →
       Implicit.merge_step (prev :: dtail) curr =
         ((Implicit.bsize curr + Implicit.bsize prev) % 2 ^ 64,
          Implicit.set_header ((Implicit.bsize curr + Implicit.bsize prev) % 2 ^ 64) false,
          dtail)) ∧
    Implicit.collapse_demo =
      some ([(32, false), (32, false), (32, false), (32, true)],
        [(96, false), (32, true), (176, true)]) := by
  refine ⟨?_, ?_, ?_, ?_, rfl⟩
  · intro s p s' h
    obtain ⟨h1, h2, h3, pre, b, post, h4, h5, _⟩ := Implicit.mm_free_marks_only h
    exact ⟨h1, h2, h3, pre, b, post, h4, h5⟩
  · intro curr
    rfl
  · intro prev dtail curr h
    unfold Implicit.merge_step
    rcases h with h | h <;> simp [h]
  · intro prev dtail curr h1 h2
    unfold Implicit.merge_step
    simp [h1, h2]

/-- C2: counterexample to "never transitively beyond one step per scan pass
(so three address-consecutive free blocks are never collapsed into one block
by a single scan)": after four 16-byte allocations and three frees the heap
holds three consecutive 32-byte free blocks, and the single scan serving a
160-byte request leaves them as one 96-byte free block. -/
theorem claim_C2_cex :
    Implicit.collapse_demo =
      some ([(32, false), (32, false), (32, false), (32, true)],
        [(96, false), (32, true), (176, true)]) := rfl

/-- C3 (amended): in both strategies `reallocate(null, n)` is `allocate(n)`
and `reallocate(ptr, 0)` is `free(ptr)` returning null.  For the scanning
strategy, a request exactly equal to the old payload size returns the old
pointer with the state untouched; in every other case `mm_realloc` is
exactly the composition allocate-copy-free: a failed allocation returns null
with the old block untouched, and a successful one copies
`min(oldPayloadSize, newSize)` payload bytes to the fresh block, marks the
old pointer's block free changing nothing else of the heap, and returns the
new payload address.  The indexed strategy has no shortcut: a successful
reallocation always decomposes into `mm_malloc`, the `min`-byte copy, and
`mm_free` of the old pointer.  Concretely, reallocating a 16-byte request's
block to 40 bytes returns the fresh payload 48, not the old pointer 16, and
leaves the old block free. -/
theorem claim_C3 :
    (∀ (s : Implicit.State) (n : Nat),
       Implicit.mm_realloc s none n = some (Implicit.mm_malloc s n)) ∧
    (∀ (s : Implicit.State) (p : Nat),
       Implicit.mm_realloc s (some p) 0 =
         (Implicit.mm_free s (some p)).map (fun t => (none, t))) ∧
    (∀ (s : Implicit.State) (p n bsz : Nat), n ≠ 0 →
       Implicit.size_at p Implicit.heap_base s.blocks = some bsz →
       n = bsz - Implicit.sizeof_block →
       Implicit.mm_realloc s (some p) n = some (some p, s)) ∧
    (∀ (s : Implicit.State) (p n bsz : Nat), n ≠ 0 →
       Implicit.size_at p Implicit.heap_base s.blocks = some bsz →
       n ≠ bsz - Implicit.sizeof_block →
       Implicit.mm_realloc s (some p) n =
         (match Implicit.mm_malloc s n with
          | (none, s1) => some (none, s1)
          | (some q, s1) =>
            (Implicit.mm_free (Implicit.memcpy s1 q p
                (if bsz - Implicit.sizeof_block < n then bsz - Implicit.sizeof_block else n))
              (some p)).map (fun s3 => (some q, s3)))) ∧
    (∀ (s s1 s' : Implicit.State) (p n bsz q : Nat), n ≠ 0 →
       Implicit.size_at p Implicit.heap_base s.blocks = some bsz →
       n ≠ bsz - Implicit.sizeof_block →
       Implicit.mm_malloc s n = (some q, s1) →
       Implicit.mm_realloc s (some p) n = some (some q, s') →
       (∀ i, i < (if bsz - Implicit.sizeof_block < n then bsz - Implicit.sizeof_block else n) →
          s'.data (q + i) = s.data (p + i)) ∧
       ∃ pre b post, s1.blocks = pre ++ b :: post ∧
         s'.blocks = pre ++ Implicit.set_header (Implicit.bsize b) false :: post ∧
         p = Implicit.heap_base + (pre.map Implicit.bsize).sum + Implicit.sizeof_block) ∧
    Implicit.realloc_copy_demo = some (some 16, some 48, [(32, false), (48, true)]) ∧
    (∀ (s : Explicit.State) (n : Nat),
       Explicit.mm_realloc s none n = Explicit.mm_malloc s n) ∧
    (∀ (s : Explicit.State) (p : Nat),
       Explicit.mm_realloc s (some p) 0 =
         (Explicit.mm_free s (some p)).map (fun t => (none, t))) ∧
    (∀ (s : Explicit.State), Explicit.EInv s →
       ∀ (p n q : Nat) (s' : Explicit.State), n ≠ 0 →
       Explicit.mm_realloc s (some p) n = some (some q, s') →
       ∃ s1 ob s2, Explicit.mm_malloc s n = some (some q, s1) ∧
         s1.blocks.find? (fun b => b.addr == p - ALIGNMENT) = some ob ∧
         Explicit.memcpy_chk s1 (some q) p
           (if tag_size ob.header < n then tag_size ob.header else n) = some s2 ∧
         Explicit.mm_free s2 (some p) = some s' ∧
         ∀ i, i < (if tag_size ob.header < n then tag_size ob.header else n) →
           s'.data (q + i) = s.data (p + i)) := by
  refine ⟨fun s n => rfl, fun s p => rfl, ?_, ?_, ?_, rfl, fun s n => rfl,
    fun s p => rfl, ?_⟩
  · intro s p n bsz hn hsz hsame
    rw [Implicit.mm_realloc, if_neg hn, hsz]
    simp only
    rw [if_pos hsame]
  · intro s p n bsz hn hsz hdiff
    rw [Implicit.mm_realloc, if_neg hn, hsz]
    simp only
    rw [if_neg hdiff]
  · intro s s1 s' p n bsz q hn hsz hdiff hmal h
    rw [Implicit.mm_realloc, if_neg hn, hsz] at h
    simp only at h
    rw [if_neg hdiff, hmal] at h
    dsimp only at h
    have h1 : s1.data = s.data := by
      rw [show s1 = (Implicit.mm_malloc s n).2 from by rw [hmal]]
      exact Implicit.mm_malloc_data s n
    cases h7 : Implicit.mm_free (Implicit.memcpy s1 q p
        (if bsz - Implicit.sizeof_block < n then bsz - Implicit.sizeof_block else n))
        (some p) with
    | none => rw [h7] at h; cases h
    | some s3 =>
      rw [h7] at h
      simp only [Option.map_some', Option.some.injEq, Prod.mk.injEq] at h
      obtain ⟨hbrk3, hlim3, hdata3, pre, b, post, hdec, hblocks, hp⟩ :=
        Implicit.mm_free_marks_only h7
      constructor
      · intro i hi
        have hidx : q + i - q = i := by omega
        rw [← h.2, hdata3]
        show (if q ≤ q + i ∧ q + i <
            q + (if bsz - Implicit.sizeof_block < n then bsz - Implicit.sizeof_block else n)
          then s1.data (p + (q + i - q)) else s1.data (q + i)) = s.data (p + i)
        rw [if_pos ⟨Nat.le_add_right q i, by omega⟩, hidx, h1]
      · refine ⟨pre, b, post, hdec, ?_, hp⟩
        rw [← h.2]
        exact hblocks
  · intro s hinv p n q s' hn h
    rw [Explicit.mm_realloc, if_neg hn] at h
    cases h2 : Explicit.mm_malloc s n with
    | none => rw [h2] at h; cases h
    | some pr =>
      cases pr with
      | mk np s1 =>
        rw [h2] at h
        dsimp only at h
        have hm := Explicit.mm_malloc_preserv hinv h2
        cases h3 : s1.blocks.find? (fun b => b.addr == p - ALIGNMENT) with
        | none => rw [h3] at h; cases h
        | some ob =>
          rw [h3] at h
          dsimp only at h
          cases h4 : Explicit.memcpy_chk s1 np p
              (if tag_size ob.header < n then tag_size ob.header else n) with
          | none => rw [h4] at h; cases h
          | some s2 =>
            rw [h4] at h
            dsimp only at h
            cases h6 : Explicit.mm_free s2 (some p) with
            | none => rw [h6] at h; cases h
            | some s3 =>
              rw [h6] at h
              simp only [Option.map_some', Option.some.injEq, Prod.mk.injEq] at h
              obtain ⟨hnp, hs3⟩ := h
              subst hnp
              rw [hs3] at h6
              have h4keep := h4
              rw [Explicit.memcpy_chk] at h4
              simp only [Option.some.injEq] at h4
              have hinv2 : Explicit.EInv s2 := by
                rw [← h4]
                exact Explicit.EInv_set_data hm.1 _
              have hf := Explicit.mm_free_preserv hinv2 h6
              refine ⟨s1, ob, s2, rfl, h3, h4keep, h6, ?_⟩
              intro i hi
              have hidx : q + i - q = i := by omega
              rw [hf.2.2.2.2, ← h4]
              show (if q ≤ q + i ∧ q + i <
                  q + (if tag_size ob.header < n then tag_size ob.header else n)
                then s1.data (p + (q + i - q)) else s1.data (q + i)) = s.data (p + i)
              rw [if_pos ⟨Nat.le_add_right q i, by omega⟩, hidx, hm.2.2.1]

/-- C3: counterexample to "no in-place growth/shrink optimization is
attempted even when the existing block could accommodate the new size (in
particular, the returned pointer is never the old pointer when a new block
can be allocated)": reallocating a 32-byte block of mm-implicit.c to its
exact payload capacity of 24 bytes returns the old pointer 16 with the heap
untouched, although a fresh 24-byte `mm_malloc` on the same heap would have
succeeded. -/
theorem claim_C3_cex :
    Implicit.realloc_shortcut_demo = some (some 16, some 16, [(32, true)], true) := rfl

/-- C4: coalescing of mm-explicit.c is eager.  The spec's scenario —
allocate 16 and 32 bytes, free both — ends with a single free block at
address 32 spanning both regions plus their tag overhead (decoded size
16 + 32 + 16 = 64) and a single free-list node; a 3-way merge of
predecessor, self and successor likewise ends as one free block with one
node; and in general, after any successful free the free list has no
duplicates and every block is flagged free exactly when it carries exactly
one node. -/
theorem claim_C4 :
    Explicit.coalesce_pair_demo = some ([(32, 64, false)], [32]) ∧
    Explicit.coalesce_threeway_demo = some ([(32, 80, false), (128, 16, true)], [32]) ∧
    (∀ (s : Explicit.State), Explicit.EInv s → ∀ (p : Nat) (s' : Explicit.State),
       Explicit.mm_free s (some p) = some s' →
       s'.freeList.Nodup ∧
       ∀ b ∈ s'.blocks, (tag_allocated b.header = false ↔ b.addr ∈ s'.freeList)) := by
  refine ⟨rfl, rfl, ?_⟩
  intro s hinv p s' h
  have hf := Explicit.mm_free_preserv hinv h
  exact ⟨hf.1.nodup, hf.1.sync⟩

/-- C6: between public operations of mm-explicit.c, a block is flagged free
exactly when its address is linked in the free list, the free list carries
no duplicates, and every linked address is backed by a live block — so the
blocks flagged free are exactly those reachable from the free list. -/
theorem claim_C6 (limit : Nat) (s0 sf : Explicit.State) (ops : List Op)
    (rets : List (Option Nat)) (hlim : limit < 2 ^ 64)
    (hinit : Explicit.mm_init limit = some s0)
    (hrun : Explicit.run s0 ops = some (sf, rets)) :
    (∀ b ∈ sf.blocks, (tag_allocated b.header = false ↔ b.addr ∈ sf.freeList)) ∧
    sf.freeList.Nodup ∧
    (∀ a ∈ sf.freeList, ∃ b, b ∈ sf.blocks ∧ b.addr = a) := by
  have h := Explicit.run_preserv ops s0 sf rets (Explicit.mm_init_EInv hlim hinit) hrun
  exact ⟨h.1.sync, h.1.nodup, h.1.backed⟩

/-- C6 witness: the invariant instantiated on the heap reached by
`mm_init 10000; p := mm_malloc 16; mm_free p`. -/
theorem claim_C6_witness :
    (∀ b ∈ Explicit.c6_state.blocks,
       (tag_allocated b.header = false ↔ b.addr ∈ Explicit.c6_state.freeList)) ∧
    Explicit.c6_state.freeList.Nodup ∧
    (∀ a ∈ Explicit.c6_state.freeList, ∃ b, b ∈ Explicit.c6_state.blocks ∧ b.addr = a) :=
  claim_C6 10000
    { blocks := [], freeList := [], brk := 48, limit := 10000, epi := 40, data := fun _ => 0 }
    Explicit.c6_state [Op.malloc 16, Op.free (some 48)] [some 48, none]
    (by decide) rfl rfl

/-- C7: the free list of mm-explicit.c records insertion order and serving
is first-fit over its reversal.  A successful free either appends the freed
block's node at the tail end with the block count unchanged, or a merge
dropped a block; a successful `find_fit` returns the first candidate of the
reversed free list that fits, every candidate before it not fitting; and on
a heap whose free list is [32, 112] a 16-byte request is served from block
112 — the most recently freed — although block 32 sits lower and fits more
tightly, so the policy is neither address-ordered nor best-fit. -/
theorem claim_C7 :
    (∀ (s : Explicit.State), Explicit.EInv s → ∀ (p : Nat) (s' : Explicit.State),
       Explicit.mm_free s (some p) = some s' →
       (s'.freeList = s.freeList ++ [p - ALIGNMENT] ∧ s'.blocks.length = s.blocks.length) ∨
       s'.blocks.length < s.blocks.length) ∧
    (∀ (s : Explicit.State) (size a : Nat) (s' : Explicit.State),
       Explicit.find_fit s size = some (some (a, s')) →
       ∃ pre post, s.freeList.reverse = pre ++ a :: post ∧
         Explicit.fits s size a = true ∧ ∀ x ∈ pre, Explicit.fits s size x = false) ∧
    Explicit.fit_policy_demo =
      some (some 128, [32, 112],
        [(32, 32, false), (80, 16, true), (112, 16, true), (144, 16, false)], [32, 144]) := by
  refine ⟨?_, ?_, rfl⟩
  · intro s hinv p s' h
    exact Explicit.mm_free_shape hinv h
  · intro s size a s' h
    exact Explicit.find_fit_select h

/-- C8: in both strategies, every pointer handed out by any public call of
any sequence run from a fresh heap is 16-byte aligned. -/
theorem claim_C8 :
    (∀ (limit : Nat) (s0 sf : Implicit.State) (ops : List Op)
       (rets : List (Option Nat)) (p : Nat),
       Implicit.mm_init limit = some s0 → Implicit.run s0 ops = some (sf, rets) →
       some p ∈ rets → p % ALIGNMENT = 0) ∧
    (∀ (limit : Nat) (s0 sf : Explicit.State) (ops : List Op)
       (rets : List (Option Nat)) (p : Nat), limit < 2 ^ 64 →
       Explicit.mm_init limit = some s0 → Explicit.run s0 ops = some (sf, rets) →
       some p ∈ rets → p % ALIGNMENT = 0) := by
  constructor
  · intro limit s0 sf ops rets p hinit hrun hmem
    exact (Implicit.run_wf ops s0 sf rets (Implicit.mm_init_wf hinit) hrun).2
      (some p) hmem p rfl
  · intro limit s0 sf ops rets p hlim hinit hrun hmem
    exact (Explicit.run_preserv ops s0 sf rets (Explicit.mm_init_EInv hlim hinit) hrun).2
      (some p) hmem p rfl

/-- C8 witness: the pointers served by a zero-byte allocation on fresh heaps
of both strategies (16 and 48) are aligned. -/
theorem claim_C8_witness : (16 : Nat) % ALIGNMENT = 0 ∧ (48 : Nat) % ALIGNMENT = 0 :=
  ⟨claim_C8.1 100 { blocks := [], brk := 8, limit := 100, data := fun _ => 0 }
      { blocks := [Implicit.set_header 16 true], brk := 24, limit := 100, data := fun _ => 0 }
      [Op.malloc 0] [some 16] 16 rfl rfl (List.mem_singleton.mpr rfl),
   claim_C8.2 100
      { blocks := [], freeList := [], brk := 48, limit := 100, epi := 40, data := fun _ => 0 }
      { blocks := [⟨32, 1, 1⟩], freeList := [], brk := 64, limit := 100, epi := 56,
        data := fun _ => 0 }
      [Op.malloc 0] [some 48] 48 (by decide) rfl rfl (List.mem_singleton.mpr rfl)⟩

/-- C9: the tag round-trips.  For any aligned `size_t` size and flag, the
decoders recover exactly what the encoders stored, in the scanning strategy's
`set_header`/`get_size`/`is_allocated` and in the indexed strategy's
`set_boundaries` (which writes the same tag into both boundary words). -/
theorem claim_C9 (size : Nat) (a : Bool) (b : Explicit.Block)
    (h1 : size % ALIGNMENT = 0) (h2 : size < 2 ^ 64) :
    (tag_size (mk_tag size a) = size ∧ tag_allocated (mk_tag size a) = a) ∧
    (Implicit.bsize (Implicit.set_header size a) = size ∧
     Implicit.balloc (Implicit.set_header size a) = a) ∧
    ((Explicit.set_boundaries b size a).header = mk_tag size a ∧
     (Explicit.set_boundaries b size a).footer = mk_tag size a ∧
     tag_size (Explicit.set_boundaries b size a).header = size ∧
     tag_allocated (Explicit.set_boundaries b size a).header = a) := by
  have he : size % 2 = 0 := by unfold ALIGNMENT WORD at h1; omega
  exact ⟨⟨tag_size_mk_tag size he h2 a, tag_allocated_mk_tag size he a⟩,
    ⟨Implicit.bsize_set_header size he h2 a, Implicit.balloc_set_header size he a⟩,
    rfl, rfl, tag_size_mk_tag size he h2 a, tag_allocated_mk_tag size he a⟩

/-- C9 witness: the round-trip at size 32, flag `true`. -/
theorem claim_C9_witness :
    (tag_size (mk_tag 32 true) = 32 ∧ tag_allocated (mk_tag 32 true) = true) ∧
    (Implicit.bsize (Implicit.set_header 32 true) = 32 ∧
     Implicit.balloc (Implicit.set_header 32 true) = true) ∧
    ((Explicit.set_boundaries ⟨32, 0, 0⟩ 32 true).header = mk_tag 32 true ∧
     (Explicit.set_boundaries ⟨32, 0, 0⟩ 32 true).footer = mk_tag 32 true ∧
     tag_size (Explicit.set_boundaries ⟨32, 0, 0⟩ 32 true).header = 32 ∧
     tag_allocated (Explicit.set_boundaries ⟨32, 0, 0⟩ 32 true).header = true) :=
  claim_C9 32 true ⟨32, 0, 0⟩ (by decide) (by decide)

/-- C10: a zero-byte allocation on a fresh heap succeeds in both strategies:
the scanning strategy returns pointer 16 backed by a minimal 16-byte block,
the indexed strategy returns pointer 48 backed by a block of decoded size 0;
both pointers satisfy the 16-byte alignment. -/
theorem claim_C10 :
    Implicit.malloc0_demo = some (some 16, [(16, true)]) ∧
    Explicit.malloc0_demo = some (some 48, [(32, 0, true)]) ∧
    16 % ALIGNMENT = 0 ∧ 48 % ALIGNMENT = 0 :=
  ⟨rfl, rfl, rfl, rfl⟩
